import Mathlib

/-!
# Verification of the tower-covering solver (tower.py / solver.py)

Shallow embedding of the repository's core: the occupancy grid, the
`Tower` rectangle type, the histogram-stack maximal-empty-rectangle
trimming algorithm (`Tower.trim`), candidate generation with rejection
sampling, tower commitment (`Solver.add_tower`) and the per-trial loop
(`Solver.solve_once`).

Grids are `List (List Nat)`: a cell value `0` means uncovered, a positive
value is the rank of the tower covering that cell (numpy `np.uint` array in
the source).  Randomness is modelled by an explicit stream of candidate
towers (the outputs of `generate_random_tower`), and the unbounded
`while` loops by fuel; `None` results model non-returning executions
(a Python exception or an exhausted random stream).
-/

set_option maxRecDepth 4000

/-- `tower.py` `Tower`: rectangle `[x1,x2) × [y1,y2)` with an optional rank.
The weak back-reference to the owning solver is modelled by `solverId`. -/
structure Tower where
  solverId : Nat
  x1 : Nat
  x2 : Nat
  y1 : Nat
  y2 : Nat
  rank : Option Nat
deriving Repr, DecidableEq

/-- `solver.py` `Solver`: grid dimensions, coverage array, tower count and
the list of committed towers.  `sid` is the solver's identity token. -/
structure Solver where
  sid : Nat
  height : Nat
  width : Nat
  coverage : List (List Nat)
  num_tower : Nat
  tower_list : List Tower
deriving Repr, DecidableEq

/-- Cell access `coverage[y][x]` (0 outside the physical lists). -/
def cellAt (g : List (List Nat)) (y x : Nat) : Nat := (g.getD y []).getD x 0

/-- The grid is a `h × w` rectangular array. -/
def rectangular (g : List (List Nat)) (h w : Nat) : Prop :=
  g.length = h ∧ ∀ row ∈ g, row.length = w

instance (g : List (List Nat)) (h w : Nat) : Decidable (rectangular g h w) := by
  unfold rectangular
  infer_instance

/-- Valid bounds for a `h × w` grid: `0 ≤ x1 < x2 ≤ w ∧ 0 ≤ y1 < y2 ≤ h`
(the `0 ≤` parts are automatic over `Nat`), as checked by `Tower.__init__`
and asserted after `Tower.trim`. -/
def Tower.inbounds (t : Tower) (h w : Nat) : Prop :=
  t.x1 < t.x2 ∧ t.x2 ≤ w ∧ t.y1 < t.y2 ∧ t.y2 ≤ h

/-- The cell `(y, x)` lies inside the tower's rectangle. -/
def Tower.covers (t : Tower) (y x : Nat) : Prop :=
  t.y1 ≤ y ∧ y < t.y2 ∧ t.x1 ≤ x ∧ x < t.x2

instance (t : Tower) (h w : Nat) : Decidable (t.inbounds h w) := by
  unfold Tower.inbounds; infer_instance

instance (t : Tower) (y x : Nat) : Decidable (t.covers y x) := by
  unfold Tower.covers; infer_instance

/-- `Tower.is_for`: identity check of the weak back-reference. -/
def Tower.is_for (t : Tower) (s : Solver) : Bool := t.solverId == s.sid

/-- `solver.coverage[tower.mask]`: the sub-grid of rows `[y1,y2)`,
columns `[x1,x2)`. -/
def subGrid (g : List (List Nat)) (t : Tower) : List (List Nat) :=
  ((g.drop t.y1).take (t.y2 - t.y1)).map (fun row => (row.drop t.x1).take (t.x2 - t.x1))

/-- `np.all(g)`: every cell non-zero (covered). -/
def allCoveredB (g : List (List Nat)) : Bool :=
  g.all (fun row => row.all (fun v => v != 0))

/-- `np.any(g)`: some cell non-zero. -/
def anyCoveredB (g : List (List Nat)) : Bool :=
  g.any (fun row => row.any (fun v => v != 0))

/-- `Solver.clear`: fresh all-zero coverage, no towers. -/
def Solver.clear (s : Solver) : Solver :=
  { s with coverage := List.replicate s.height (List.replicate s.width 0),
           num_tower := 0, tower_list := [] }

/-- `Tower.__init__` argument validation (`create_tower` delegates to it):
accepts integer coordinates with `0 ≤ x1 < x2 ≤ width` and
`0 ≤ y1 < y2 ≤ height`, rank left unassigned. -/
def Solver.create_tower (s : Solver) (x1 x2 y1 y2 : Int) : Except String Tower :=
  if 0 ≤ x1 ∧ x1 < x2 ∧ x2 ≤ (s.width : Int) then
    if 0 ≤ y1 ∧ y1 < y2 ∧ y2 ≤ (s.height : Int) then
      .ok ⟨s.sid, x1.toNat, x2.toNat, y1.toNat, y2.toNat, none⟩
    else .error "Invalid y coordinates"
  else .error "Invalid x coordinates"

/-- One row of `coverage[tower.mask] = rank`: overwrite columns `[x1,x2)`.
`x` is the index of the first cell of the remaining row. -/
def setRow (x1 x2 r : Nat) : Nat → List Nat → List Nat
  | _, [] => []
  | x, v :: vs => (if x1 ≤ x ∧ x < x2 then r else v) :: setRow x1 x2 r (x + 1) vs

/-- `coverage[tower.mask] = rank`: overwrite the tower's rectangle. -/
def setCells (t : Tower) (r : Nat) : Nat → List (List Nat) → List (List Nat)
  | _, [] => []
  | y, row :: rows =>
      (if t.y1 ≤ y ∧ y < t.y2 then setRow t.x1 t.x2 r 0 row else row) ::
        setCells t r (y + 1) rows

/-- In-place slice assignment `self.coverage[tower.mask] = tower.rank`. -/
def markRect (g : List (List Nat)) (t : Tower) (r : Nat) : List (List Nat) :=
  setCells t r 0 g

/-- `Solver.add_tower`: reject a tower of a different solver, reject any
overlap with current coverage; otherwise assign the next rank, append the
tower and mark its cells. -/
def Solver.add_tower (s : Solver) (t : Tower) : Except String Solver :=
  if ¬ t.is_for s then
    .error "The tower was not created for the solver"
  else if anyCoveredB (subGrid s.coverage t) then
    .error "New tower overlaps with the current coverage"
  else
    .ok { s with
          num_tower := s.num_tower + 1,
          tower_list := s.tower_list ++ [{ t with rank := some (s.num_tower + 1) }],
          coverage := markRect s.coverage t (s.num_tower + 1) }

/-- The rejection loop of `generate_random_valid_tower_untrimmed`: take the
first candidate of the random stream whose region is not fully covered,
returning it with the unconsumed remainder of the stream. -/
def findValid (s : Solver) : List Tower → Option (Tower × List Tower)
  | [] => none
  | t :: rest =>
      if allCoveredB (subGrid s.coverage t) then findValid s rest else some (t, rest)

/-- `Solver.generate_random_valid_tower_untrimmed`: error out when the whole
grid is covered, otherwise rejection-sample from the candidate stream
(`.ok none` models an execution that never returns because the stream ran
out). -/
def Solver.generate_random_valid_tower_untrimmed (s : Solver) (cands : List Tower) :
    Except String (Option (Tower × List Tower)) :=
  if allCoveredB s.coverage then .error "The entire space has been covered"
  else .ok (findValid s cands)

/-! ## The trimming algorithm (`Tower.trim`)

State of the maximal-rectangle search: `area` starts at `-1`
(`max_area = -1`), `coords` at `none` (`max_coordinates = (None,)*4`),
recording `(x0, x, yTop, yBot)` in local sub-grid coordinates. -/

structure MaxSt where
  area : Int
  coords : Option (Nat × Nat × Nat × Nat)
deriving Repr, DecidableEq

/-- `if area > max_area: record it`. -/
def updMax (m : MaxSt) (a : Nat) (c : Nat × Nat × Nat × Nat) : MaxSt :=
  if m.area < (a : Int) then { area := (a : Int), coords := some c } else m

/-- The inner `while item < current_height` pop loop at column `xx` of row
`yy`.  Pops `(xx0, height0)` pairs, examines the rectangle of height
`current_height` over columns `[xx0, xx)`, and continues with
`current_height = height0`.  Returns the remaining stack, the final
current height, the updated maximum and the last pair popped (the source
re-pushes that pair afterwards when needed). -/
def popLoop (yy xx item : Nat) :
    List (Nat × Nat) → Nat → MaxSt → List (Nat × Nat) × Nat × MaxSt × Option (Nat × Nat)
  | [], ch, m => ([], ch, m, none)
  | (x0, h0) :: rest, ch, m =>
      if item < ch then
        let r := popLoop yy xx item rest h0
            (updMax m (ch * (xx - x0)) (x0, xx, yy + 1 - ch, yy + 1))
        (r.1, r.2.1, r.2.2.1, some (r.2.2.2.getD (x0, h0)))
      else ((x0, h0) :: rest, ch, m, none)

/-- Scan state: the `(column, height)` stack (head is the top),
`current_height`, and the running maximum. -/
structure ScanSt where
  stack : List (Nat × Nat)
  ch : Nat
  m : MaxSt
deriving Repr, DecidableEq

/-- One iteration of the inner column loop of `Tower.trim` at `(yy, xx)`
with histogram value `item`: open a new rectangle, or close rectangles via
`popLoop` (re-pushing the last popped opening with its original height when
the new height is non-zero and differs from the height closed to), or do
nothing when the height is unchanged. -/
def stackStep (yy xx item : Nat) (s : ScanSt) : ScanSt :=
  if s.ch < item then { s with stack := (xx, s.ch) :: s.stack, ch := item }
  else if item < s.ch then
    match popLoop yy xx item s.stack s.ch s.m with
    | (st', ch', m', last) =>
        if ch' ≠ item then
          { stack := if item ≠ 0 then
                       (match last with | some pr => pr :: st' | none => st')
                     else st',
            ch := item, m := m' }
        else { stack := st', ch := ch', m := m' }
  else s

/-- The column loop over `itertools.chain(cache, (0,))`. -/
def scanCols (yy : Nat) : Nat → List Nat → ScanSt → ScanSt
  | _, [], s => s
  | xx, item :: rest, s => scanCols yy (xx + 1) rest (stackStep yy xx item s)

/-- One full row scan: fresh empty stack and zero `current_height`, the
histogram followed by the trailing virtual `0`. -/
def scanRow (yy : Nat) (hist : List Nat) (m : MaxSt) : MaxSt :=
  (scanCols yy 0 (hist ++ [0]) { stack := [], ch := 0, m := m }).m

/-- `cache += 1; cache[row != 0] = 0`. -/
def updateCache (cache row : List Nat) : List Nat :=
  List.zipWith (fun c v => if v ≠ 0 then 0 else c + 1) cache row

/-- The outer `for yy, row in enumerate(sub_array)` loop. -/
def rowLoop : Nat → List Nat → List (List Nat) → MaxSt → MaxSt
  | _, _, [], m => m
  | yy, cache, row :: rows, m =>
      let cache1 := updateCache cache row
      rowLoop (yy + 1) cache1 rows (scanRow yy cache1 m)

/-- The maximal-rectangle search of `Tower.trim` on the local sub-grid:
`cache = np.zeros_like(sub_array[0])`, then the row loop. -/
def trimCore (sub : List (List Nat)) : MaxSt :=
  rowLoop 0 (List.replicate (sub.headD []).length 0) sub { area := -1, coords := none }

/-- `Tower.trim`: error when the sub-area is fully covered, otherwise run
the search and shrink the bounds in place (translated by the old
`(x1, y1)`), then assert validity of the result.  The solver is returned
unchanged: the source's only writes are to `self.x1, x2, y1, y2`. -/
def Tower.trim (t : Tower) (s : Solver) : Except String (Solver × Tower) :=
  let sub := subGrid s.coverage t
  if allCoveredB sub then .error "The entire current space has been covered."
  else
    match (trimCore sub).coords with
    | none => .error "TypeError: unsupported operand"
    | some (a, b, c, d) =>
        let t1 : Tower := { t with x1 := t.x1 + a, x2 := t.x1 + b,
                                   y1 := t.y1 + c, y2 := t.y1 + d }
        if t1.x1 < t1.x2 ∧ t1.x2 ≤ s.width ∧ t1.y1 < t1.y2 ∧ t1.y2 ≤ s.height then
          .ok (s, t1)
        else .error "AssertionError"

/-- `Solver.generate_random_valid_tower_trimmed`: generate then trim. -/
def Solver.generate_random_valid_tower_trimmed (s : Solver) (cands : List Tower) :
    Except String (Option (Tower × List Tower)) :=
  match s.generate_random_valid_tower_untrimmed cands with
  | .error e => .error e
  | .ok none => .ok none
  | .ok (some (t, rest)) =>
      match t.trim s with
      | .error e => .error e
      | .ok (_, t1) => .ok (some (t1, rest))

/-- The `while not np.all(self.coverage)` loop of `Solver.solve_once`,
with fuel; `none` models a run that does not return normally (exception,
exhausted stream or exhausted fuel). -/
def solveLoop : Nat → Solver → List Tower → Option Solver
  | 0, _, _ => none
  | fuel + 1, s, cands =>
      if allCoveredB s.coverage then some s
      else
        match s.generate_random_valid_tower_trimmed cands with
        | .error _ => none
        | .ok none => none
        | .ok (some (t1, rest)) =>
            match s.add_tower t1 with
            | .error _ => none
            | .ok s1 => solveLoop fuel s1 rest

/-- `Solver.solve_once` (`run_trial`): clear, loop, return the tower count
(together with the post-state, which in the source lives in `self`). -/
def Solver.solve_once (s : Solver) (cands : List Tower) (fuel : Nat) :
    Option (Solver × Nat) :=
  (solveLoop fuel s.clear cands).map (fun s1 => (s1, s1.num_tower))

/-! ## Specification-side definitions -/

/-- `[x1,x2) × [y1,y2)` is a valid all-uncovered rectangle of the `h × w`
grid `g`. -/
def rectEmpty (g : List (List Nat)) (h w x1 x2 y1 y2 : Nat) : Prop :=
  x1 < x2 ∧ x2 ≤ w ∧ y1 < y2 ∧ y2 ≤ h ∧
    ∀ y < y2, ∀ x < x2, y1 ≤ y → x1 ≤ x → cellAt g y x = 0

instance (g : List (List Nat)) (h w x1 x2 y1 y2 : Nat) :
    Decidable (rectEmpty g h w x1 x2 y1 y2) := by
  unfold rectEmpty; infer_instance

/-! ## Invariants of the histogram-stack scan

`segPairs ch stack` pairs each stacked opening column with the height of
the rectangle currently open above it: the top entry with
`current_height`, each deeper entry with the stored height of the entry
pushed after it. -/

def segPairs : Nat → List (Nat × Nat) → List (Nat × Nat)
  | _, [] => []
  | ch, (x, g) :: rest => (x, ch) :: segPairs g rest

/-- Structural well-formedness of the scan state after processing a prefix
of length `k`: stored heights strictly increase towards the top (and are
dominated by `current_height`), columns strictly increase towards the top
and are `< k`, the bottom stored height is `0`, and an empty stack forces
`current_height = 0`. -/
def stackWF (k : Nat) : Nat → List (Nat × Nat) → Prop
  | ch, [] => ch = 0
  | ch, (x, g) :: rest => g < ch ∧ x < k ∧ (∀ q ∈ rest, q.1 < x) ∧ stackWF k g rest

/-- Every open rectangle is genuine: the processed prefix `p` is at least
`v` high on all columns from the opening to the edge. -/
def stackSound (p : List Nat) (ch : Nat) (st : List (Nat × Nat)) : Prop :=
  ∀ pr ∈ segPairs ch st, ∀ i, pr.1 ≤ i → i < p.length → pr.2 ≤ p.getD i 0

/-- Every window of `p` reaching the processed edge is covered by an open
rectangle at least as wide and as high. -/
def stackComplete (p : List Nat) (ch : Nat) (st : List (Nat × Nat)) : Prop :=
  ∀ a h2, a < p.length → 1 ≤ h2 → (∀ i, a ≤ i → i < p.length → h2 ≤ p.getD i 0) →
    ∃ pr ∈ segPairs ch st, pr.1 ≤ a ∧ h2 ≤ pr.2

/-- Every window of the processed prefix is either already dominated by the
recorded maximum or still open (its guaranteed height extends to the
processed edge). -/
def closedDom (p : List Nat) (m : MaxSt) : Prop :=
  ∀ a b h2, a < b → b ≤ p.length → 1 ≤ h2 → (∀ i, a ≤ i → i < b → h2 ≤ p.getD i 0) →
    (((h2 * (b - a) : Nat) : Int) ≤ m.area ∨ ∀ i, a ≤ i → i < p.length → h2 ≤ p.getD i 0)

/-- The recorded maximum is absent exactly when `area = -1`, and otherwise
satisfies the rectangle predicate `R` with `area` equal to `A`. -/
def examOK (R : Nat × Nat × Nat × Nat → Prop) (A : Nat × Nat × Nat × Nat → Nat)
    (m : MaxSt) : Prop :=
  (m.coords = none → m.area = -1) ∧ ∀ c, m.coords = some c → R c ∧ m.area = (A c : Int)

theorem stackWF_mono {k k' ch : Nat} {st : List (Nat × Nat)}
    (hk : k ≤ k') : stackWF k ch st → stackWF k' ch st := by
  induction st generalizing ch with
  | nil => intro h; exact h
  | cons q rest ih =>
      obtain ⟨x, g⟩ := q
      intro h
      obtain ⟨h1, h2, h3, h4⟩ := h
      exact ⟨h1, lt_of_lt_of_le h2 hk, h3, ih h4⟩

theorem segPairs_val_le {k ch : Nat} {st : List (Nat × Nat)} (hwf : stackWF k ch st) :
    ∀ pr ∈ segPairs ch st, pr.2 ≤ ch := by
  induction st generalizing ch with
  | nil => intro pr h; simp [segPairs] at h
  | cons q rest ih =>
      obtain ⟨x, g⟩ := q
      obtain ⟨h1, h2, h3, h4⟩ := hwf
      intro pr hpr
      simp only [segPairs, List.mem_cons] at hpr
      rcases hpr with h | h
      · subst h; exact le_rfl
      · exact le_trans (ih h4 pr h) (le_of_lt h1)

theorem segPairs_x_lt {k ch : Nat} {st : List (Nat × Nat)} (hwf : stackWF k ch st) :
    ∀ pr ∈ segPairs ch st, pr.1 < k := by
  induction st generalizing ch with
  | nil => intro pr h; simp [segPairs] at h
  | cons q rest ih =>
      obtain ⟨x, g⟩ := q
      obtain ⟨h1, h2, h3, h4⟩ := hwf
      intro pr hpr
      simp only [segPairs, List.mem_cons] at hpr
      rcases hpr with h | h
      · subst h; exact h2
      · exact ih h4 pr h

theorem stackWF_nil {k ch : Nat} (hwf : stackWF k ch ([] : List (Nat × Nat))) : ch = 0 := hwf

theorem updMax_le (m : MaxSt) (a : Nat) (c : Nat × Nat × Nat × Nat) :
    m.area ≤ (updMax m a c).area := by
  unfold updMax
  split
  · exact le_of_lt (by assumption)
  · exact le_rfl

theorem updMax_ge (m : MaxSt) (a : Nat) (c : Nat × Nat × Nat × Nat) :
    (a : Int) ≤ (updMax m a c).area := by
  unfold updMax
  split
  · exact le_rfl
  · omega

theorem updMax_examOK {R : Nat × Nat × Nat × Nat → Prop} {A : Nat × Nat × Nat × Nat → Nat}
    {m : MaxSt} (hok : examOK R A m) (a : Nat) (c : Nat × Nat × Nat × Nat)
    (hR : R c) (hA : A c = a) : examOK R A (updMax m a c) := by
  unfold updMax
  split
  · exact ⟨fun h => by simp at h, fun c' hc' => by
      simp only [Option.some.injEq] at hc'
      subst hc'; exact ⟨hR, by simp [hA]⟩⟩
  · exact hok

theorem segPairs_x_mem {ch : Nat} {st : List (Nat × Nat)} :
    ∀ pr ∈ segPairs ch st, ∃ q ∈ st, pr.1 = q.1 := by
  induction st generalizing ch with
  | nil => intro pr h; simp [segPairs] at h
  | cons q rest ih =>
      obtain ⟨x, g⟩ := q
      intro pr hpr
      simp only [segPairs, List.mem_cons] at hpr
      rcases hpr with h | h
      · exact ⟨(x, g), List.mem_cons_self _ _, by simp [h]⟩
      · obtain ⟨q', hq', he⟩ := ih pr h
        exact ⟨q', List.mem_cons_of_mem _ hq', he⟩

theorem popLoop_nopop {yy xx item ch : Nat} {stack : List (Nat × Nat)} {m : MaxSt}
    (h : ¬ item < ch) : popLoop yy xx item stack ch m = (stack, ch, m, none) := by
  cases stack with
  | nil => rfl
  | cons q rest => obtain ⟨x0, h0⟩ := q; simp [popLoop, h]

/-- Everything `popLoop` guarantees: the recorded maximum stays sound and
grows, every open rectangle taller than `item` has been examined, the final
current height is at most `item`, the surviving stack keeps its invariants
and its open rectangles are among the previous ones, and (when a pop
happened) the last popped pair bounds the survivors. -/
structure PopOut (R : Nat × Nat × Nat × Nat → Prop) (A : Nat × Nat × Nat × Nat → Nat)
    (p : List Nat) (item : Nat) (ch : Nat) (stack : List (Nat × Nat)) (m : MaxSt)
    (out : List (Nat × Nat) × Nat × MaxSt × Option (Nat × Nat)) : Prop where
  ok : examOK R A out.2.2.1
  mono : m.area ≤ out.2.2.1.area
  examined : ∀ pr ∈ segPairs ch stack, item < pr.2 →
      ((pr.2 * (p.length - pr.1) : Nat) : Int) ≤ out.2.2.1.area
  chle : out.2.1 ≤ item
  wf : stackWF p.length out.2.1 out.1
  sound : stackSound p out.2.1 out.1
  sub : ∀ pr ∈ segPairs out.2.1 out.1, pr ∈ segPairs ch stack
  lastSpec : item < ch → ∃ xl,
      out.2.2.2 = some (xl, out.2.1) ∧
      (∀ q ∈ out.1, q.1 < xl) ∧
      (∀ pr ∈ segPairs ch stack, pr.1 < xl → pr ∈ segPairs out.2.1 out.1) ∧
      ∃ v, (xl, v) ∈ segPairs ch stack ∧ item < v

theorem popLoop_spec (R : Nat × Nat × Nat × Nat → Prop) (A : Nat × Nat × Nat × Nat → Nat)
    (yy : Nat) (p : List Nat) (item : Nat)
    (hexam : ∀ x0 c, 1 ≤ c → x0 < p.length →
        (∀ i, x0 ≤ i → i < p.length → c ≤ p.getD i 0) →
        R (x0, p.length, yy + 1 - c, yy + 1) ∧
        A (x0, p.length, yy + 1 - c, yy + 1) = c * (p.length - x0)) :
    ∀ (stack : List (Nat × Nat)) (ch : Nat) (m : MaxSt),
      stackWF p.length ch stack → stackSound p ch stack → examOK R A m →
      PopOut R A p item ch stack m (popLoop yy p.length item stack ch m) := by
  intro stack
  induction stack with
  | nil =>
      intro ch m hwf hsound hok
      have hch : ch = 0 := hwf
      refine ⟨hok, le_rfl, ?_, ?_, hwf, hsound, fun pr h => h, ?_⟩
      · intro pr h; simp [segPairs] at h
      · show ch ≤ item; omega
      · intro h; exact absurd h (by omega)
  | cons q rest ih =>
      obtain ⟨x0, h0⟩ := q
      intro ch m hwf hsound hok
      obtain ⟨hg, hx, hrest, hwfrest⟩ := hwf
      by_cases hlt : item < ch
      · -- a pop happens
        have hpairs : segPairs ch ((x0, h0) :: rest) = (x0, ch) :: segPairs h0 rest := rfl
        have hhead : (x0, ch) ∈ segPairs ch ((x0, h0) :: rest) := by
          rw [hpairs]; exact List.mem_cons_self _ _
        have hwin : ∀ i, x0 ≤ i → i < p.length → ch ≤ p.getD i 0 := by
          intro i h1 h2; exact hsound (x0, ch) hhead i h1 h2
        have hch1 : 1 ≤ ch := by omega
        obtain ⟨hR, hA⟩ := hexam x0 ch hch1 hx hwin
        set m1 := updMax m (ch * (p.length - x0)) (x0, p.length, yy + 1 - ch, yy + 1) with hm1
        have hok1 : examOK R A m1 := updMax_examOK hok _ _ hR hA
        have hsoundrest : stackSound p h0 rest := by
          intro pr hpr i h1 h2
          exact hsound pr (by rw [hpairs]; exact List.mem_cons_of_mem _ hpr) i h1 h2
        have IH := ih h0 m1 hwfrest hsoundrest hok1
        have heq : popLoop yy p.length item ((x0, h0) :: rest) ch m =
            ((popLoop yy p.length item rest h0 m1).1,
             (popLoop yy p.length item rest h0 m1).2.1,
             (popLoop yy p.length item rest h0 m1).2.2.1,
             some ((popLoop yy p.length item rest h0 m1).2.2.2.getD (x0, h0))) := by
          simp [popLoop, hlt, hm1]
        rw [heq]
        set out := popLoop yy p.length item rest h0 m1 with hout
        refine ⟨IH.ok, le_trans (updMax_le m _ _) IH.mono, ?_, IH.chle, IH.wf, IH.sound,
                fun pr h => List.mem_cons_of_mem _ (IH.sub pr h), ?_⟩
        · intro pr hpr hip
          rw [hpairs] at hpr
          rcases List.mem_cons.mp hpr with h | h
          · subst h
            exact le_trans (updMax_ge m _ _) IH.mono
          · exact IH.examined pr h hip
        · intro _
          by_cases hlt2 : item < h0
          · obtain ⟨xl, hlast, hqlt, hsurv, v, hv, hvlt⟩ := IH.lastSpec hlt2
            refine ⟨xl, ?_, hqlt, ?_, ?_⟩
            · show some (out.2.2.2.getD (x0, h0)) = some (xl, out.2.1)
              rw [hlast]; rfl
            · intro pr hpr hplt
              rw [hpairs] at hpr
              rcases List.mem_cons.mp hpr with h | h
              · exfalso
                obtain ⟨q', hq', hqe⟩ := segPairs_x_mem (xl, v) hv
                have : q'.1 < x0 := hrest q' hq'
                subst h
                simp at hplt
                omega
              · exact hsurv pr h hplt
            · exact ⟨v, by rw [hpairs]; exact List.mem_cons_of_mem _ hv, hvlt⟩
          · have hnp : popLoop yy p.length item rest h0 m1 = (rest, h0, m1, none) :=
              popLoop_nopop hlt2
            refine ⟨x0, ?_, ?_, ?_, ⟨ch, hhead, hlt⟩⟩
            · show some (out.2.2.2.getD (x0, h0)) = some (x0, out.2.1)
              rw [hout, hnp]
              rfl
            · intro q' hq'
              rw [hout, hnp] at hq'
              exact hrest q' hq'
            · intro pr hpr hplt
              rw [hpairs] at hpr
              rcases List.mem_cons.mp hpr with h | h
              · subst h; simp at hplt
              · rw [hout, hnp]; exact h
      · rw [popLoop_nopop hlt]
        have hwf' : stackWF p.length ch ((x0, h0) :: rest) := ⟨hg, hx, hrest, hwfrest⟩
        refine ⟨hok, le_rfl, ?_, (by omega : ch ≤ item), hwf', hsound, fun pr h => h, ?_⟩
        · intro pr hpr hip
          exfalso
          have := segPairs_val_le (k := p.length) hwf' pr hpr
          omega
        · intro h; omega

theorem stackWF_x_lt {k ch : Nat} {st : List (Nat × Nat)} (hwf : stackWF k ch st) :
    ∀ q ∈ st, q.1 < k := by
  induction st generalizing ch with
  | nil => intro q h; simp at h
  | cons q0 rest ih =>
      obtain ⟨x, g⟩ := q0
      obtain ⟨h1, h2, h3, h4⟩ := hwf
      intro q hq
      rcases List.mem_cons.mp hq with h | h
      · subst h; exact h2
      · exact ih h4 q h

theorem getD_append_lt {p : List Nat} {w : Nat} {i : Nat} (h : i < p.length) :
    (p ++ [w]).getD i 0 = p.getD i 0 := by
  induction p generalizing i with
  | nil => simp at h
  | cons v vs ih =>
      cases i with
      | zero => rfl
      | succ j =>
          show (vs ++ [w]).getD j 0 = vs.getD j 0
          exact ih (by simp at h; omega)

theorem getD_append_self {p : List Nat} {w : Nat} :
    (p ++ [w]).getD p.length 0 = w := by
  induction p with
  | nil => rfl
  | cons v vs ih =>
      show ((vs ++ [w]).getD vs.length 0) = w
      exact ih

/-- Invariant bundle of the column scan over a processed prefix `p`. -/
structure ScanInv (R : Nat × Nat × Nat × Nat → Prop) (A : Nat × Nat × Nat × Nat → Nat)
    (p : List Nat) (s : ScanSt) : Prop where
  wf : stackWF p.length s.ch s.stack
  sound : stackSound p s.ch s.stack
  complete : stackComplete p s.ch s.stack
  dom : closedDom p s.m
  ok : examOK R A s.m

theorem stackStep_spec (R : Nat × Nat × Nat × Nat → Prop) (A : Nat × Nat × Nat × Nat → Nat)
    (yy : Nat) (p : List Nat) (w : Nat)
    (hexam : ∀ x0 c, 1 ≤ c → x0 < p.length →
        (∀ i, x0 ≤ i → i < p.length → c ≤ p.getD i 0) →
        R (x0, p.length, yy + 1 - c, yy + 1) ∧
        A (x0, p.length, yy + 1 - c, yy + 1) = c * (p.length - x0))
    (s : ScanSt) (hinv : ScanInv R A p s) :
    ScanInv R A (p ++ [w]) (stackStep yy p.length w s) ∧
      s.m.area ≤ (stackStep yy p.length w s).m.area := by
  have hlen : (p ++ [w]).length = p.length + 1 := by simp
  by_cases hpush : s.ch < w
  · -- push branch
    have hstep : stackStep yy p.length w s =
        { s with stack := (p.length, s.ch) :: s.stack, ch := w } := by
      unfold stackStep; rw [if_pos hpush]
    rw [hstep]
    refine ⟨⟨?_, ?_, ?_, ?_, hinv.ok⟩, le_rfl⟩
    · -- wf
      show stackWF (p ++ [w]).length w ((p.length, s.ch) :: s.stack)
      rw [hlen]
      exact ⟨hpush, by omega, stackWF_x_lt hinv.wf, stackWF_mono (by omega) hinv.wf⟩
    · -- sound
      intro pr hpr i h1 h2
      rw [hlen] at h2
      have hpairs : segPairs w ((p.length, s.ch) :: s.stack) =
          (p.length, w) :: segPairs s.ch s.stack := rfl
      rw [hpairs] at hpr
      rcases List.mem_cons.mp hpr with h | h
      · subst h
        simp only at h1 h2 ⊢
        have : i = p.length := by omega
        subst this
        rw [getD_append_self]
      · by_cases hi : i < p.length
        · rw [getD_append_lt hi]; exact hinv.sound pr h i h1 hi
        · have : i = p.length := by omega
          subst this
          rw [getD_append_self]
          exact le_trans (segPairs_val_le hinv.wf pr h) (le_of_lt hpush)
    · -- complete
      intro a h2 ha hh2 hall
      rw [hlen] at ha
      have hw : h2 ≤ w := by
        have := hall p.length (by omega) (by rw [hlen]; omega)
        rwa [getD_append_self] at this
      by_cases hap : a < p.length
      · have hallp : ∀ i, a ≤ i → i < p.length → h2 ≤ p.getD i 0 := by
          intro i h1 hi
          have := hall i h1 (by rw [hlen]; omega)
          rwa [getD_append_lt hi] at this
        obtain ⟨pr, hpr, hx, hv⟩ := hinv.complete a h2 hap hh2 hallp
        exact ⟨pr, List.mem_cons_of_mem _ hpr, hx, hv⟩
      · exact ⟨(p.length, w), List.mem_cons_self _ _, by simp; omega, hw⟩
    · -- dom
      intro a b h2 hab hb hh2 hall
      rw [hlen] at hb
      by_cases hbp : b ≤ p.length
      · have hallp : ∀ i, a ≤ i → i < b → h2 ≤ p.getD i 0 := by
          intro i h1 hi
          have := hall i h1 hi
          rwa [getD_append_lt (by omega)] at this
        rcases hinv.dom a b h2 hab hbp hh2 hallp with hdone | hopen
        · exact Or.inl hdone
        · right
          intro i h1 hi
          rw [hlen] at hi
          by_cases hip : i < p.length
          · rw [getD_append_lt hip]; exact hopen i h1 hip
          · have : i = p.length := by omega
            subst this
            rw [getD_append_self]
            by_cases hwh : h2 ≤ w
            · exact hwh
            · exfalso
              obtain ⟨pr, hpr, _, hv⟩ := hinv.complete a h2 (by omega) hh2 hopen
              have := segPairs_val_le hinv.wf pr hpr
              omega
      · right
        intro i h1 hi
        exact hall i h1 (by omega)
  · by_cases hpop : w < s.ch
    · -- pop branch
      have PO := popLoop_spec R A yy p w hexam s.stack s.ch s.m hinv.wf hinv.sound hinv.ok
      obtain ⟨xl, hlast, hqlt, hsurv, v, hv, hvw⟩ := PO.lastSpec hpop
      have hxl : xl < p.length := segPairs_x_lt hinv.wf (xl, v) hv
      set out := popLoop yy p.length w s.stack s.ch s.m with hout
      by_cases hne : out.2.1 ≠ w
      · have hchlt : out.2.1 < w := lt_of_le_of_ne PO.chle hne
        have hw0 : w ≠ 0 := by omega
        have hstep : stackStep yy p.length w s =
            { stack := (xl, out.2.1) :: out.1, ch := w, m := out.2.2.1 } := by
          unfold stackStep
          rw [if_neg hpush, if_pos hpop, ← hout]
          rw [show out = (out.1, out.2.1, out.2.2.1, out.2.2.2) from rfl]
          simp only [hlast]
          simp [hne, hw0]
        rw [hstep]
        have hpairs : segPairs w ((xl, out.2.1) :: out.1) =
            (xl, w) :: segPairs out.2.1 out.1 := rfl
        refine ⟨⟨?_, ?_, ?_, ?_, PO.ok⟩, PO.mono⟩
        · -- wf
          show stackWF (p ++ [w]).length w ((xl, out.2.1) :: out.1)
          rw [hlen]
          exact ⟨hchlt, by omega, hqlt, stackWF_mono (by omega) PO.wf⟩
        · -- sound
          intro pr hpr i h1 h2
          rw [hlen] at h2
          rw [hpairs] at hpr
          rcases List.mem_cons.mp hpr with h | h
          · subst h
            simp only at h1 ⊢
            by_cases hip : i < p.length
            · rw [getD_append_lt hip]
              exact le_trans (le_of_lt hvw) (hinv.sound (xl, v) hv i h1 hip)
            · have : i = p.length := by omega
              subst this
              rw [getD_append_self]
          · by_cases hip : i < p.length
            · rw [getD_append_lt hip]; exact PO.sound pr h i h1 hip
            · have : i = p.length := by omega
              subst this
              rw [getD_append_self]
              exact le_trans (segPairs_val_le PO.wf pr h) (le_of_lt hchlt)
        · -- complete
          intro a h2 ha hh2 hall
          rw [hlen] at ha
          have hw : h2 ≤ w := by
            have := hall p.length (by omega) (by rw [hlen]; omega)
            rwa [getD_append_self] at this
          by_cases hap : a < p.length
          · have hallp : ∀ i, a ≤ i → i < p.length → h2 ≤ p.getD i 0 := by
              intro i h1 hi
              have := hall i h1 (by rw [hlen]; omega)
              rwa [getD_append_lt hi] at this
            obtain ⟨pr, hpr, hx, hvp⟩ := hinv.complete a h2 hap hh2 hallp
            by_cases hxxl : pr.1 < xl
            · exact ⟨pr, by rw [hpairs]; exact List.mem_cons_of_mem _ (hsurv pr hpr hxxl), hx, hvp⟩
            · exact ⟨(xl, w), by rw [hpairs]; exact List.mem_cons_self _ _,
                (by omega : xl ≤ a), hw⟩
          · exact ⟨(xl, w), by rw [hpairs]; exact List.mem_cons_self _ _,
              (by omega : xl ≤ a), hw⟩
        · -- dom
          intro a b h2 hab hb hh2 hall
          rw [hlen] at hb
          by_cases hbp : b ≤ p.length
          · have hallp : ∀ i, a ≤ i → i < b → h2 ≤ p.getD i 0 := by
              intro i h1 hi
              have := hall i h1 hi
              rwa [getD_append_lt (by omega)] at this
            rcases hinv.dom a b h2 hab hbp hh2 hallp with hdone | hopen
            · exact Or.inl (le_trans hdone PO.mono)
            · by_cases hwh : h2 ≤ w
              · right
                intro i h1 hi
                rw [hlen] at hi
                by_cases hip : i < p.length
                · rw [getD_append_lt hip]; exact hopen i h1 hip
                · have : i = p.length := by omega
                  subst this
                  rw [getD_append_self]
                  exact hwh
              · left
                obtain ⟨pr, hpr, hx, hvp⟩ := hinv.complete a h2 (by omega) hh2 hopen
                have hexa := PO.examined pr hpr (by omega)
                refine le_trans ?_ hexa
                have hnat : h2 * (b - a) ≤ pr.2 * (p.length - pr.1) :=
                  Nat.mul_le_mul hvp (by omega)
                exact_mod_cast hnat
          · right
            intro i h1 hi
            exact hall i h1 (by omega)
      · -- the pop closed exactly to `item`
        push_neg at hne
        have hstep : stackStep yy p.length w s =
            { stack := out.1, ch := out.2.1, m := out.2.2.1 } := by
          unfold stackStep
          rw [if_neg hpush, if_pos hpop, ← hout]
          rw [show out = (out.1, out.2.1, out.2.2.1, out.2.2.2) from rfl]
          simp [hne]
        rw [hstep]
        refine ⟨⟨?_, ?_, ?_, ?_, PO.ok⟩, PO.mono⟩
        · -- wf
          show stackWF (p ++ [w]).length out.2.1 out.1
          rw [hlen]
          exact stackWF_mono (by omega) PO.wf
        · -- sound
          intro pr hpr i h1 h2
          rw [hlen] at h2
          by_cases hip : i < p.length
          · rw [getD_append_lt hip]; exact PO.sound pr hpr i h1 hip
          · have : i = p.length := by omega
            subst this
            rw [getD_append_self, ← hne]
            exact segPairs_val_le PO.wf pr hpr
        · -- complete
          intro a h2 ha hh2 hall
          rw [hlen] at ha
          have hw : h2 ≤ w := by
            have := hall p.length (by omega) (by rw [hlen]; omega)
            rwa [getD_append_self] at this
          obtain hst | ⟨q, rest, hst⟩ : out.1 = [] ∨ ∃ q rest, out.1 = q :: rest := by
            cases out.1 with
            | nil => exact Or.inl rfl
            | cons q rest => exact Or.inr ⟨q, rest, rfl⟩
          · exfalso
            have : out.2.1 = 0 := by
              have hh := PO.wf
              rw [hst] at hh
              exact hh
            omega
          · have hhd : (q.1, out.2.1) ∈ segPairs out.2.1 out.1 := by
              rw [hst]
              obtain ⟨qx, qg⟩ := q
              exact List.mem_cons_self _ _
            have hq1 : q.1 < xl := hqlt q (by rw [hst]; exact List.mem_cons_self _ _)
            by_cases hap : a < p.length
            · have hallp : ∀ i, a ≤ i → i < p.length → h2 ≤ p.getD i 0 := by
                intro i h1 hi
                have := hall i h1 (by rw [hlen]; omega)
                rwa [getD_append_lt hi] at this
              obtain ⟨pr, hpr, hx, hvp⟩ := hinv.complete a h2 hap hh2 hallp
              by_cases hxxl : pr.1 < xl
              · exact ⟨pr, hsurv pr hpr hxxl, hx, hvp⟩
              · exact ⟨(q.1, out.2.1), hhd, (by omega : q.1 ≤ a), by rw [hne]; exact hw⟩
            · exact ⟨(q.1, out.2.1), hhd, (by omega : q.1 ≤ a), by rw [hne]; exact hw⟩
        · -- dom
          intro a b h2 hab hb hh2 hall
          rw [hlen] at hb
          by_cases hbp : b ≤ p.length
          · have hallp : ∀ i, a ≤ i → i < b → h2 ≤ p.getD i 0 := by
              intro i h1 hi
              have := hall i h1 hi
              rwa [getD_append_lt (by omega)] at this
            rcases hinv.dom a b h2 hab hbp hh2 hallp with hdone | hopen
            · exact Or.inl (le_trans hdone PO.mono)
            · by_cases hwh : h2 ≤ w
              · right
                intro i h1 hi
                rw [hlen] at hi
                by_cases hip : i < p.length
                · rw [getD_append_lt hip]; exact hopen i h1 hip
                · have : i = p.length := by omega
                  subst this
                  rw [getD_append_self]
                  exact hwh
              · left
                obtain ⟨pr, hpr, hx, hvp⟩ := hinv.complete a h2 (by omega) hh2 hopen
                have hexa := PO.examined pr hpr (by omega)
                refine le_trans ?_ hexa
                have hnat : h2 * (b - a) ≤ pr.2 * (p.length - pr.1) :=
                  Nat.mul_le_mul hvp (by omega)
                exact_mod_cast hnat
          · right
            intro i h1 hi
            exact hall i h1 (by omega)
    · -- unchanged branch: `w = s.ch`
      have hwch : w = s.ch := by omega
      have hstep : stackStep yy p.length w s = s := by
        unfold stackStep
        rw [if_neg hpush, if_neg hpop]
      rw [hstep]
      refine ⟨⟨stackWF_mono (by omega) hinv.wf, ?_, ?_, ?_, hinv.ok⟩, le_rfl⟩
      · -- sound
        intro pr hpr i h1 h2
        rw [hlen] at h2
        by_cases hip : i < p.length
        · rw [getD_append_lt hip]; exact hinv.sound pr hpr i h1 hip
        · have : i = p.length := by omega
          subst this
          rw [getD_append_self, hwch]
          exact segPairs_val_le hinv.wf pr hpr
      · -- complete
        intro a h2 ha hh2 hall
        rw [hlen] at ha
        have hw : h2 ≤ w := by
          have := hall p.length (by omega) (by rw [hlen]; omega)
          rwa [getD_append_self] at this
        obtain hst | ⟨q, rest, hst⟩ : s.stack = [] ∨ ∃ q rest, s.stack = q :: rest := by
          cases s.stack with
          | nil => exact Or.inl rfl
          | cons q rest => exact Or.inr ⟨q, rest, rfl⟩
        · exfalso
          have : s.ch = 0 := by
            have hh := hinv.wf
            rw [hst] at hh
            exact hh
          omega
        · have hhd : (q.1, s.ch) ∈ segPairs s.ch s.stack := by
            rw [hst]
            obtain ⟨qx, qg⟩ := q
            exact List.mem_cons_self _ _
          have hq1 : q.1 < p.length :=
            stackWF_x_lt hinv.wf q (by rw [hst]; exact List.mem_cons_self _ _)
          by_cases hap : a < p.length
          · have hallp : ∀ i, a ≤ i → i < p.length → h2 ≤ p.getD i 0 := by
              intro i h1 hi
              have := hall i h1 (by rw [hlen]; omega)
              rwa [getD_append_lt hi] at this
            exact hinv.complete a h2 hap hh2 hallp
          · exact ⟨(q.1, s.ch), hhd, (by omega : q.1 ≤ a), by rw [← hwch]; exact hw⟩
      · -- dom
        intro a b h2 hab hb hh2 hall
        rw [hlen] at hb
        by_cases hbp : b ≤ p.length
        · have hallp : ∀ i, a ≤ i → i < b → h2 ≤ p.getD i 0 := by
            intro i h1 hi
            have := hall i h1 hi
            rwa [getD_append_lt (by omega)] at this
          rcases hinv.dom a b h2 hab hbp hh2 hallp with hdone | hopen
          · exact Or.inl hdone
          · by_cases hwh : h2 ≤ w
            · right
              intro i h1 hi
              rw [hlen] at hi
              by_cases hip : i < p.length
              · rw [getD_append_lt hip]; exact hopen i h1 hip
              · have : i = p.length := by omega
                subst this
                rw [getD_append_self]
                exact hwh
            · exfalso
              obtain ⟨pr, hpr, _, hvp⟩ := hinv.complete a h2 (by omega) hh2 hopen
              have := segPairs_val_le hinv.wf pr hpr
              omega
        · right
          intro i h1 hi
          exact hall i h1 (by omega)

theorem prefix_getD {p q : List Nat} {i : Nat} (h : i < p.length) :
    (p ++ q).getD i 0 = p.getD i 0 := List.getD_append p q 0 i h

theorem scanCols_spec (R : Nat × Nat × Nat × Nat → Prop) (A : Nat × Nat × Nat × Nat → Nat)
    (yy : Nat) (hist : List Nat)
    (hexam : ∀ k, k ≤ hist.length → ∀ x0 c, 1 ≤ c → x0 < k →
        (∀ i, x0 ≤ i → i < k → c ≤ hist.getD i 0) →
        R (x0, k, yy + 1 - c, yy + 1) ∧ A (x0, k, yy + 1 - c, yy + 1) = c * (k - x0)) :
    ∀ (rem p : List Nat) (s : ScanSt), p ++ rem = hist ++ [0] → ScanInv R A p s →
      ScanInv R A (hist ++ [0]) (scanCols yy p.length rem s) ∧
        s.m.area ≤ (scanCols yy p.length rem s).m.area := by
  intro rem
  induction rem with
  | nil =>
      intro p s happ hinv
      have : p = hist ++ [0] := by simpa using happ
      subst this
      exact ⟨hinv, le_rfl⟩
  | cons w rem' ih =>
      intro p s happ hinv
      have hplen : p.length ≤ hist.length := by
        have := congrArg List.length happ
        simp at this
        omega
      have hpget : ∀ i, i < p.length → p.getD i 0 = hist.getD i 0 := by
        intro i hi
        have h1 : (p ++ w :: rem').getD i 0 = p.getD i 0 := prefix_getD hi
        have h2 : (hist ++ [0]).getD i 0 = hist.getD i 0 := prefix_getD (by omega)
        rw [happ] at h1
        omega
      have hexamp : ∀ x0 c, 1 ≤ c → x0 < p.length →
          (∀ i, x0 ≤ i → i < p.length → c ≤ p.getD i 0) →
          R (x0, p.length, yy + 1 - c, yy + 1) ∧
          A (x0, p.length, yy + 1 - c, yy + 1) = c * (p.length - x0) := by
        intro x0 c hc hx0 hall
        refine hexam p.length hplen x0 c hc hx0 ?_
        intro i h1 h2
        rw [← hpget i h2]
        exact hall i h1 h2
      have hstep := stackStep_spec R A yy p w hexamp s hinv
      have happ' : (p ++ [w]) ++ rem' = hist ++ [0] := by
        rw [List.append_assoc]
        simpa using happ
      have hlen' : (p ++ [w]).length = p.length + 1 := by simp
      have := ih (p ++ [w]) (stackStep yy p.length w s) happ' hstep.1
      rw [hlen'] at this
      have hred : scanCols yy p.length (w :: rem') s =
          scanCols yy (p.length + 1) rem' (stackStep yy p.length w s) := rfl
      rw [hred]
      exact ⟨this.1, le_trans hstep.2 this.2⟩

theorem scanRow_spec (R : Nat × Nat × Nat × Nat → Prop) (A : Nat × Nat × Nat × Nat → Nat)
    (yy : Nat) (hist : List Nat) (m : MaxSt)
    (hexam : ∀ k, k ≤ hist.length → ∀ x0 c, 1 ≤ c → x0 < k →
        (∀ i, x0 ≤ i → i < k → c ≤ hist.getD i 0) →
        R (x0, k, yy + 1 - c, yy + 1) ∧ A (x0, k, yy + 1 - c, yy + 1) = c * (k - x0))
    (hok : examOK R A m) :
    examOK R A (scanRow yy hist m) ∧ m.area ≤ (scanRow yy hist m).area ∧
      ∀ a b c, a < b → b ≤ hist.length → 1 ≤ c →
        (∀ i, a ≤ i → i < b → c ≤ hist.getD i 0) →
        ((c * (b - a) : Nat) : Int) ≤ (scanRow yy hist m).area := by
  have hinv0 : ScanInv R A [] { stack := [], ch := 0, m := m } := by
    refine ⟨rfl, ?_, ?_, ?_, hok⟩
    · intro pr hpr i h1 h2; simp at h2
    · intro a h2 ha; simp at ha
    · intro a b h2 hab hb; simp at hb; omega
  have := scanCols_spec R A yy hist hexam (hist ++ [0]) [] { stack := [], ch := 0, m := m }
    (by simp) hinv0
  have hfin := this.1
  have hmono := this.2
  refine ⟨hfin.ok, hmono, ?_⟩
  intro a b c hab hb hc hall
  have hdom := hfin.dom a b c hab (by simp; omega) hc ?_
  · rcases hdom with h | h
    · exact h
    · exfalso
      have := h hist.length (by omega) (by simp)
      rw [List.getD_append_right hist [0] 0 hist.length le_rfl] at this
      simp at this
      omega
  · intro i h1 h2
    rw [prefix_getD (by omega)]
    exact hall i h1 h2

/-! ## The `cache` histogram: consecutive-uncovered run lengths -/

/-- Number of leading rows (of a reversed row list) whose cell at column
`x` is uncovered. -/
def runUpRev : List (List Nat) → Nat → Nat
  | [], _ => 0
  | row :: rows, x => if row.getD x 0 ≠ 0 then 0 else runUpRev rows x + 1

/-- Number of consecutive uncovered rows at column `x` ending at the last
row of `rows`: the value `cache[x]` holds after processing `rows`. -/
def runUp (rows : List (List Nat)) (x : Nat) : Nat := runUpRev rows.reverse x

theorem runUpRev_le (l : List (List Nat)) (x : Nat) : runUpRev l x ≤ l.length := by
  induction l with
  | nil => exact le_rfl
  | cons row rows ih =>
      simp only [runUpRev]
      split
      · simp
      · simpa using ih

theorem runUpRev_zero {l : List (List Nat)} {x : Nat} :
    ∀ i, i < runUpRev l x → (l.getD i []).getD x 0 = 0 := by
  induction l with
  | nil => intro i hi; simp [runUpRev] at hi
  | cons row rows ih =>
      intro i hi
      simp only [runUpRev] at hi
      by_cases hz : row.getD x 0 ≠ 0
      · rw [if_pos hz] at hi; omega
      · rw [if_neg hz] at hi
        push_neg at hz
        cases i with
        | zero => simpa using hz
        | succ j => simpa using ih j (by omega)

theorem runUpRev_ge {l : List (List Nat)} {x n : Nat}
    (hall : ∀ i, i < n → (l.getD i []).getD x 0 = 0) (hn : n ≤ l.length) :
    n ≤ runUpRev l x := by
  induction l generalizing n with
  | nil =>
      have : n = 0 := by simpa using hn
      simp [runUpRev, this]
  | cons row rows ih =>
      cases n with
      | zero => exact Nat.zero_le _
      | succ m =>
          have h0 : row.getD x 0 = 0 := by simpa using hall 0 (by omega)
          simp only [runUpRev, h0]
          simp only [ne_eq, not_true_eq_false, ite_false, if_neg, not_false_eq_true]
          have := ih (n := m) (fun i hi => by simpa using hall (i + 1) (by omega))
            (by simpa using hn)
          omega

theorem reverse_getD {l : List (List Nat)} {i : Nat} (h : i < l.length) :
    l.reverse.getD i [] = l.getD (l.length - 1 - i) [] := by
  rw [List.getD_eq_getElem _ _ (by simpa using h), List.getD_eq_getElem _ _ (by omega)]
  exact List.getElem_reverse (by simpa using h)

theorem runUp_le (rows : List (List Nat)) (x : Nat) : runUp rows x ≤ rows.length := by
  unfold runUp
  simpa using runUpRev_le rows.reverse x

theorem runUp_zero {rows : List (List Nat)} {x r : Nat}
    (h1 : rows.length - runUp rows x ≤ r) (h2 : r < rows.length) :
    (rows.getD r []).getD x 0 = 0 := by
  have hle := runUp_le rows x
  have hi : rows.length - 1 - r < runUpRev rows.reverse x := by
    unfold runUp at h1 hle
    omega
  have := runUpRev_zero _ hi
  rw [reverse_getD (by omega)] at this
  have harith : rows.length - 1 - (rows.length - 1 - r) = r := by omega
  rwa [harith] at this

theorem runUp_ge {rows : List (List Nat)} {x c : Nat} (hc : c ≤ rows.length)
    (hall : ∀ r, rows.length - c ≤ r → r < rows.length → (rows.getD r []).getD x 0 = 0) :
    c ≤ runUp rows x := by
  unfold runUp
  refine runUpRev_ge ?_ (by simpa using hc)
  intro i hi
  rw [reverse_getD (by omega)]
  exact hall (rows.length - 1 - i) (by omega) (by omega)

theorem runUp_concat (l : List (List Nat)) (row : List Nat) (x : Nat) :
    runUp (l ++ [row]) x = if row.getD x 0 ≠ 0 then 0 else runUp l x + 1 := by
  unfold runUp
  rw [List.reverse_append]
  rfl

theorem updateCache_length (cache row : List Nat) :
    (updateCache cache row).length = min cache.length row.length := by
  simp [updateCache]

theorem updateCache_getD : ∀ (cache row : List Nat) (x : Nat),
    x < cache.length → x < row.length →
    (updateCache cache row).getD x 0 =
      if row.getD x 0 ≠ 0 then 0 else cache.getD x 0 + 1 := by
  intro cache
  induction cache with
  | nil => intro row x h1 h2; simp at h1
  | cons c cs ih =>
      intro row x h1 h2
      cases row with
      | nil => simp at h2
      | cons v vs =>
          cases x with
          | zero => rfl
          | succ j =>
              have : updateCache (c :: cs) (v :: vs) =
                  (if v ≠ 0 then 0 else c + 1) :: updateCache cs vs := rfl
              rw [this]
              simpa using ih vs j (by simpa using h1) (by simpa using h2)

theorem take_getD {α : Type} (l : List α) (i n : Nat) (d : α) (h : i < n) :
    (l.take n).getD i d = l.getD i d := by
  rcases Nat.lt_or_ge i l.length with hl | hl
  · rw [List.getD_eq_getElem _ _ (by simp; omega), List.getD_eq_getElem _ _ hl]
    exact List.getElem_take _
  · rw [List.getD_eq_default _ _ (by simp; omega), List.getD_eq_default _ _ (by omega)]

theorem drop_getD {α : Type} : ∀ (n : Nat) (l : List α) (i : Nat) (d : α),
    (l.drop n).getD i d = l.getD (n + i) d := by
  intro n
  induction n with
  | zero => intro l i d; simp
  | succ m ih =>
      intro l i d
      cases l with
      | nil => simp
      | cons a as =>
          show (as.drop m).getD i d = _
          rw [ih as i d, show m + 1 + i = (m + i) + 1 from by omega]
          simp [List.getD_cons_succ]

/-- Rectangle predicate for recorded maxima of `trimCore` on `sub`. -/
def rectR (sub : List (List Nat)) (h w : Nat) : Nat × Nat × Nat × Nat → Prop :=
  fun c => rectEmpty sub h w c.1 c.2.1 c.2.2.1 c.2.2.2

/-- Area of a recorded rectangle `(x1, x2, y1, y2)`. -/
def rectA : Nat × Nat × Nat × Nat → Nat :=
  fun c => (c.2.1 - c.1) * (c.2.2.2 - c.2.2.1)

theorem replicate_getD (n x : Nat) : (List.replicate n (0 : Nat)).getD x 0 = 0 := by
  rcases Nat.lt_or_ge x n with h | h
  · rw [List.getD_eq_getElem _ _ (by simpa using h)]
    simp
  · rw [List.getD_eq_default _ _ (by simpa using h)]

theorem rowLoop_spec (sub : List (List Nat)) (h w : Nat) (hrect : rectangular sub h w) :
    ∀ (rows : List (List Nat)) (yy : Nat) (cache : List Nat) (m : MaxSt),
      sub.drop yy = rows →
      cache.length = w →
      (∀ x, x < w → cache.getD x 0 = runUp (sub.take yy) x) →
      examOK (rectR sub h w) rectA m →
      (∀ x1 x2 y1 y2, rectEmpty sub h w x1 x2 y1 y2 → y2 ≤ yy →
          (((x2 - x1) * (y2 - y1) : Nat) : Int) ≤ m.area) →
      examOK (rectR sub h w) rectA (rowLoop yy cache rows m) ∧
        m.area ≤ (rowLoop yy cache rows m).area ∧
        ∀ x1 x2 y1 y2, rectEmpty sub h w x1 x2 y1 y2 →
          (((x2 - x1) * (y2 - y1) : Nat) : Int) ≤ (rowLoop yy cache rows m).area := by
  intro rows
  induction rows with
  | nil =>
      intro yy cache m hdrop hclen hcache hok hdom
      have hyy : h ≤ yy := by
        have := congrArg List.length hdrop
        simp [hrect.1] at this
        omega
      refine ⟨hok, le_rfl, ?_⟩
      intro x1 x2 y1 y2 hr
      obtain ⟨_, _, _, hy2, _⟩ := hr
      exact hdom x1 x2 y1 y2 ⟨by assumption, by assumption, by assumption, hy2, by assumption⟩
        (by omega)
  | cons row rows' ih =>
      intro yy cache m hdrop hclen hcache hok hdom
      have hyy : yy < h := by
        have := congrArg List.length hdrop
        simp [hrect.1] at this
        omega
      have hlen' : yy < sub.length := by rw [hrect.1]; exact hyy
      have hrowmem : row ∈ sub :=
        List.mem_of_mem_drop (by rw [hdrop]; exact List.mem_cons_self _ _)
      have hroww : row.length = w := hrect.2 row hrowmem
      have hrowget : sub.getD yy [] = row := by
        have h1 : (sub.drop yy).getD 0 [] = row := by rw [hdrop]; rfl
        rw [drop_getD] at h1
        simpa using h1
      set cache1 := updateCache cache row with hc1
      have hc1len : cache1.length = w := by
        rw [hc1, updateCache_length, hclen, hroww]
        simp
      have htake : sub.take (yy + 1) = sub.take yy ++ [row] := by
        rw [List.take_succ, List.getElem?_eq_getElem hlen']
        have hy : sub[yy] = row := by
          rw [← hrowget]
          exact (List.getD_eq_getElem sub [] hlen').symm
        rw [hy]
        rfl
      have htklen : (sub.take (yy + 1)).length = yy + 1 := by
        rw [List.length_take, hrect.1]
        omega
      have hcache1 : ∀ x, x < w → cache1.getD x 0 = runUp (sub.take (yy + 1)) x := by
        intro x hx
        rw [hc1, updateCache_getD cache row x (by omega) (by omega)]
        rw [htake, runUp_concat, hcache x hx]
      have hexam : ∀ k, k ≤ cache1.length → ∀ x0 c, 1 ≤ c → x0 < k →
          (∀ i, x0 ≤ i → i < k → c ≤ cache1.getD i 0) →
          rectR sub h w (x0, k, yy + 1 - c, yy + 1) ∧
          rectA (x0, k, yy + 1 - c, yy + 1) = c * (k - x0) := by
        intro k hk x0 c hc hx0 hwin
        rw [hc1len] at hk
        have hcy : c ≤ yy + 1 := by
          have h1 := hwin x0 le_rfl hx0
          rw [hcache1 x0 (by omega)] at h1
          have h2 := runUp_le (sub.take (yy + 1)) x0
          rw [htklen] at h2
          omega
        constructor
        · show rectEmpty sub h w x0 k (yy + 1 - c) (yy + 1)
          refine ⟨hx0, hk, by omega, by omega, ?_⟩
          intro y hy x hxk hy1 hx1
          have hcx : c ≤ cache1.getD x 0 := hwin x hx1 hxk
          rw [hcache1 x (by omega)] at hcx
          have hz : ((sub.take (yy + 1)).getD y []).getD x 0 = 0 :=
            runUp_zero (by rw [htklen]; omega) (by rw [htklen]; omega)
          show cellAt sub y x = 0
          unfold cellAt
          rw [← take_getD sub y (yy + 1) [] (by omega)]
          exact hz
        · show (k - x0) * (yy + 1 - (yy + 1 - c)) = c * (k - x0)
          have he : yy + 1 - (yy + 1 - c) = c := by omega
          rw [he, Nat.mul_comm]
      have hscan := scanRow_spec (rectR sub h w) rectA yy cache1 m hexam hok
      set m1 := scanRow yy cache1 m with hm1
      have hdom1 : ∀ x1 x2 y1 y2, rectEmpty sub h w x1 x2 y1 y2 → y2 ≤ yy + 1 →
          (((x2 - x1) * (y2 - y1) : Nat) : Int) ≤ m1.area := by
        intro x1 x2 y1 y2 hr hy2
        rcases Nat.lt_or_ge y2 (yy + 1) with hcase | hcase
        · exact le_trans (hdom x1 x2 y1 y2 hr (by omega)) hscan.2.1
        · have hy2e : y2 = yy + 1 := by omega
          obtain ⟨hx12, hx2w, hy12, hy2h, hcells⟩ := hr
          have hwin : ∀ i, x1 ≤ i → i < x2 → (y2 - y1) ≤ cache1.getD i 0 := by
            intro i h1 h2
            rw [hcache1 i (by omega)]
            refine runUp_ge (by rw [htklen]; omega) ?_
            intro r hr1 hr2
            rw [htklen] at hr1 hr2
            have hcc : cellAt sub r i = 0 :=
              hcells r (by omega) i (by omega) (by omega) h1
            unfold cellAt at hcc
            rw [take_getD sub r (yy + 1) [] (by omega)]
            exact hcc
          have hval := hscan.2.2 x1 x2 (y2 - y1) hx12 (by rw [hc1len]; omega)
            (by omega) hwin
          have : (x2 - x1) * (y2 - y1) = (y2 - y1) * (x2 - x1) := Nat.mul_comm _ _
          rw [this]
          exact hval
      have hdrop' : sub.drop (yy + 1) = rows' := by
        have h1 : List.drop 1 (List.drop yy sub) = rows' := by rw [hdrop]; rfl
        rwa [List.drop_drop] at h1
      have hrec := ih (yy + 1) cache1 m1 hdrop' hc1len hcache1 hscan.1 hdom1
      have hred : rowLoop yy cache (row :: rows') m = rowLoop (yy + 1) cache1 rows' m1 := by
        simp only [rowLoop]
      rw [hred]
      exact ⟨hrec.1, le_trans hscan.2.1 hrec.2.1, hrec.2.2⟩

/-- Full functional correctness of the maximal-rectangle search: on a
rectangular sub-grid with at least one uncovered cell it records an
all-uncovered rectangle of maximum area over all all-uncovered
sub-rectangles. -/
theorem trimCore_spec (sub : List (List Nat)) (h w : Nat) (hrect : rectangular sub h w)
    (y0 x0 : Nat) (hy0 : y0 < h) (hx0 : x0 < w) (hzero : cellAt sub y0 x0 = 0) :
    ∃ a b c d, (trimCore sub).coords = some (a, b, c, d) ∧
      rectEmpty sub h w a b c d ∧
      (trimCore sub).area = (((b - a) * (d - c) : Nat) : Int) ∧
      ∀ x1 x2 y1 y2, rectEmpty sub h w x1 x2 y1 y2 →
        (x2 - x1) * (y2 - y1) ≤ (b - a) * (d - c) := by
  have h0 : 0 < h := by omega
  have hhead : (sub.headD []).length = w := by
    cases sub with
    | nil =>
        exfalso
        have := hrect.1
        simp at this
        omega
    | cons r rs => exact hrect.2 r (List.mem_cons_self _ _)
  have hinit : examOK (rectR sub h w) rectA { area := -1, coords := none } :=
    ⟨fun _ => rfl, fun c hc => by simp at hc⟩
  have hrl := rowLoop_spec sub h w hrect sub 0 (List.replicate (sub.headD []).length 0)
      { area := -1, coords := none } rfl (by rw [List.length_replicate]; exact hhead)
      (by intro x hx
          rw [replicate_getD]
          simp [runUp, runUpRev])
      hinit
      (by intro x1 x2 y1 y2 hr hy2
          obtain ⟨_, _, h3, _, _⟩ := hr
          omega)
  have htc : trimCore sub = rowLoop 0 (List.replicate (sub.headD []).length 0) sub
      { area := -1, coords := none } := rfl
  rw [htc]
  set mfin := rowLoop 0 (List.replicate (sub.headD []).length 0) sub
      { area := -1, coords := none } with hmfin
  have hcell : rectEmpty sub h w x0 (x0 + 1) y0 (y0 + 1) := by
    refine ⟨by omega, by omega, by omega, by omega, ?_⟩
    intro y hy x hx hy1 hx1
    have hye : y = y0 := by omega
    have hxe : x = x0 := by omega
    rw [hye, hxe]
    exact hzero
  have hone : (1 : Int) ≤ mfin.area := by
    have := hrl.2.2 x0 (x0 + 1) y0 (y0 + 1) hcell
    simpa using this
  obtain hnone | ⟨c, hc⟩ : mfin.coords = none ∨ ∃ c, mfin.coords = some c := by
    cases mfin.coords with
    | none => exact Or.inl rfl
    | some c => exact Or.inr ⟨c, rfl⟩
  · exfalso
    have := hrl.1.1 hnone
    omega
  · obtain ⟨hR, hA⟩ := hrl.1.2 c hc
    obtain ⟨a, b, cc, d⟩ := c
    refine ⟨a, b, cc, d, hc, hR, ?_, ?_⟩
    · rw [hA]; rfl
    · intro x1 x2 y1 y2 hr
      have := hrl.2.2 x1 x2 y1 y2 hr
      rw [hA] at this
      have harea : rectA (a, b, cc, d) = (b - a) * (d - cc) := rfl
      rw [harea] at this
      exact_mod_cast this

/-! ## Grid bookkeeping: sub-grids, coverage tests, cell marking -/

theorem map_getD {α β : Type} (f : α → β) (l : List α) (r : Nat) (d : α) (d' : β)
    (h : r < l.length) : (l.map f).getD r d' = f (l.getD r d) := by
  rw [List.getD_eq_getElem _ _ (by simpa using h), List.getD_eq_getElem _ _ h]
  simp

theorem subGrid_rectangular {g : List (List Nat)} {h w : Nat} {t : Tower}
    (hrect : rectangular g h w) (hb : t.inbounds h w) :
    rectangular (subGrid g t) (t.y2 - t.y1) (t.x2 - t.x1) := by
  obtain ⟨hx12, hx2, hy12, hy2⟩ := hb
  constructor
  · simp only [subGrid, List.length_map, List.length_take, List.length_drop, hrect.1]
    omega
  · intro row hrow
    simp only [subGrid, List.mem_map] at hrow
    obtain ⟨row0, hrow0, hre⟩ := hrow
    have hmem : row0 ∈ g := List.mem_of_mem_drop (List.mem_of_mem_take hrow0)
    have hlen : row0.length = w := hrect.2 row0 hmem
    rw [← hre]
    simp only [List.length_take, List.length_drop, hlen]
    omega

theorem subGrid_cellAt {g : List (List Nat)} {h w : Nat} {t : Tower}
    (hrect : rectangular g h w) (hb : t.inbounds h w) {r c : Nat}
    (hr : r < t.y2 - t.y1) (hc : c < t.x2 - t.x1) :
    cellAt (subGrid g t) r c = cellAt g (t.y1 + r) (t.x1 + c) := by
  obtain ⟨hx12, hx2, hy12, hy2⟩ := hb
  have hglen : g.length = h := hrect.1
  have htk : ((g.drop t.y1).take (t.y2 - t.y1)).length = t.y2 - t.y1 := by
    simp
    omega
  unfold cellAt subGrid
  rw [map_getD _ _ r [] [] (by rw [htk]; exact hr)]
  rw [take_getD _ r _ [] hr, drop_getD]
  have hrow : g.getD (t.y1 + r) [] ∈ g ∨ g.getD (t.y1 + r) [] = [] := by
    rcases Nat.lt_or_ge (t.y1 + r) g.length with hl | hl
    · left
      rw [List.getD_eq_getElem _ _ hl]
      exact List.getElem_mem _
    · right
      exact List.getD_eq_default _ _ hl
  rcases hrow with hmem | hnil
  · have hlen : (g.getD (t.y1 + r) []).length = w := hrect.2 _ hmem
    rw [take_getD _ c _ 0 hc, drop_getD]
  · rw [hnil]
    simp

theorem allCoveredB_iff {g : List (List Nat)} {h w : Nat} (hrect : rectangular g h w) :
    allCoveredB g = true ↔ ∀ y, y < h → ∀ x, x < w → cellAt g y x ≠ 0 := by
  unfold allCoveredB
  rw [List.all_eq_true]
  constructor
  · intro hall y hy x hx
    have hyl : y < g.length := by rw [hrect.1]; exact hy
    have hrow : g.getD y [] ∈ g := by
      rw [List.getD_eq_getElem _ _ hyl]
      exact List.getElem_mem _
    have hlen : (g.getD y []).length = w := hrect.2 _ hrow
    have hxl : x < (g.getD y []).length := by omega
    have hv : (g.getD y []).getD x 0 ∈ g.getD y [] := by
      rw [List.getD_eq_getElem _ _ hxl]
      exact List.getElem_mem _
    have := List.all_eq_true.mp (hall _ hrow) _ hv
    simpa [cellAt] using this
  · intro hcell row hrow
    rw [List.all_eq_true]
    intro v hv
    obtain ⟨y, hy, hye⟩ := List.mem_iff_getElem.mp hrow
    obtain ⟨x, hx, hxe⟩ := List.mem_iff_getElem.mp hv
    have hyh : y < h := by rw [← hrect.1]; exact hy
    have hxw : x < w := by
      have := hrect.2 row hrow
      omega
    have : cellAt g y x = v := by
      unfold cellAt
      rw [List.getD_eq_getElem _ _ hy, hye, List.getD_eq_getElem _ _ hx, hxe]
    have hne := hcell y hyh x hxw
    rw [this] at hne
    simpa using hne

theorem anyCoveredB_iff {g : List (List Nat)} {h w : Nat} (hrect : rectangular g h w) :
    anyCoveredB g = true ↔ ∃ y, y < h ∧ ∃ x, x < w ∧ cellAt g y x ≠ 0 := by
  unfold anyCoveredB
  rw [List.any_eq_true]
  constructor
  · intro ⟨row, hrow, hex⟩
    obtain ⟨v, hv, hvne⟩ := List.any_eq_true.mp hex
    obtain ⟨y, hy, hye⟩ := List.mem_iff_getElem.mp hrow
    obtain ⟨x, hx, hxe⟩ := List.mem_iff_getElem.mp hv
    refine ⟨y, by rw [← hrect.1]; exact hy, x, ?_, ?_⟩
    · have := hrect.2 row hrow
      omega
    · have : cellAt g y x = v := by
        unfold cellAt
        rw [List.getD_eq_getElem _ _ hy, hye, List.getD_eq_getElem _ _ hx, hxe]
      rw [this]
      simpa using hvne
  · intro ⟨y, hy, x, hx, hne⟩
    have hyl : y < g.length := by rw [hrect.1]; exact hy
    have hrow : g.getD y [] ∈ g := by
      rw [List.getD_eq_getElem _ _ hyl]
      exact List.getElem_mem _
    have hlen : (g.getD y []).length = w := hrect.2 _ hrow
    have hxl : x < (g.getD y []).length := by omega
    refine ⟨g.getD y [], hrow, List.any_eq_true.mpr ⟨(g.getD y []).getD x 0, ?_, ?_⟩⟩
    · rw [List.getD_eq_getElem _ _ hxl]
      exact List.getElem_mem _
    · simpa [cellAt] using hne

theorem allCoveredB_false_iff {g : List (List Nat)} {h w : Nat} (hrect : rectangular g h w) :
    allCoveredB g = false ↔ ∃ y, y < h ∧ ∃ x, x < w ∧ cellAt g y x = 0 := by
  constructor
  · intro hB
    by_contra hno
    push_neg at hno
    have hT : allCoveredB g = true := by
      rw [allCoveredB_iff hrect]
      intro y hy x hx
      exact hno y hy x hx
    rw [hB] at hT
    exact Bool.false_ne_true hT
  · intro ⟨y, hy, x, hx, hz⟩
    rcases hB : allCoveredB g with _ | _
    · rfl
    · exact absurd hz ((allCoveredB_iff hrect).mp hB y hy x hx)

theorem setRow_length (x1 x2 r : Nat) : ∀ (x0 : Nat) (row : List Nat),
    (setRow x1 x2 r x0 row).length = row.length := by
  intro x0 row
  induction row generalizing x0 with
  | nil => rfl
  | cons v vs ih => simp [setRow, ih]

theorem setRow_getD (x1 x2 r : Nat) : ∀ (x0 x : Nat) (row : List Nat), x < row.length →
    (setRow x1 x2 r x0 row).getD x 0 =
      if x1 ≤ x0 + x ∧ x0 + x < x2 then r else row.getD x 0 := by
  intro x0 x row
  induction row generalizing x0 x with
  | nil => intro hx; simp at hx
  | cons v vs ih =>
      intro hx
      cases x with
      | zero => simp [setRow]
      | succ j =>
          show (setRow x1 x2 r (x0 + 1) vs).getD j 0 = _
          rw [ih (x0 + 1) j (by simpa using hx)]
          have he : x0 + 1 + j = x0 + (j + 1) := by omega
          rw [he]
          rfl

theorem setCells_length (t : Tower) (r : Nat) : ∀ (y0 : Nat) (g : List (List Nat)),
    (setCells t r y0 g).length = g.length := by
  intro y0 g
  induction g generalizing y0 with
  | nil => rfl
  | cons row rows ih => simp [setCells, ih]

theorem setCells_getD (t : Tower) (r : Nat) : ∀ (y0 y : Nat) (g : List (List Nat)),
    y < g.length →
    (setCells t r y0 g).getD y [] =
      if t.y1 ≤ y0 + y ∧ y0 + y < t.y2 then setRow t.x1 t.x2 r 0 (g.getD y [])
      else g.getD y [] := by
  intro y0 y g
  induction g generalizing y0 y with
  | nil => intro hy; simp at hy
  | cons row rows ih =>
      intro hy
      cases y with
      | zero => simp [setCells]
      | succ j =>
          show (setCells t r (y0 + 1) rows).getD j [] = _
          rw [ih (y0 + 1) j (by simpa using hy)]
          have he : y0 + 1 + j = y0 + (j + 1) := by omega
          rw [he]
          rfl

theorem markRect_rectangular {g : List (List Nat)} {h w : Nat} {t : Tower} {r : Nat}
    (hrect : rectangular g h w) : rectangular (markRect g t r) h w := by
  constructor
  · rw [markRect, setCells_length]
    exact hrect.1
  · intro row hrow
    -- every row of the marked grid is either an original row or a marked one
    have : ∀ y0 g0, row ∈ setCells t r y0 g0 → (∀ q ∈ g0, q.length = w) → row.length = w := by
      intro y0 g0
      induction g0 generalizing y0 with
      | nil => intro hmem; intro _; simp [setCells] at hmem
      | cons q qs ih =>
          intro hmem hall
          simp only [setCells, List.mem_cons] at hmem
          rcases hmem with he | hmem
          · rcases he with he
            split at he
            · rw [he, setRow_length]
              exact hall q (List.mem_cons_self _ _)
            · rw [he]
              exact hall q (List.mem_cons_self _ _)
          · exact ih (y0 + 1) hmem (fun q' hq' => hall q' (List.mem_cons_of_mem _ hq'))
    exact this 0 g hrow hrect.2

theorem markRect_cellAt {g : List (List Nat)} {h w : Nat} {t : Tower} {r : Nat}
    (hrect : rectangular g h w) {y x : Nat} (hy : y < h) (hx : x < w) :
    cellAt (markRect g t r) y x = if t.covers y x then r else cellAt g y x := by
  have hyl : y < g.length := by rw [hrect.1]; exact hy
  have hrowlen : (g.getD y []).length = w := by
    apply hrect.2
    rw [List.getD_eq_getElem _ _ hyl]
    exact List.getElem_mem _
  unfold cellAt markRect
  rw [setCells_getD t r 0 y g hyl]
  simp only [Nat.zero_add]
  by_cases hyc : t.y1 ≤ y ∧ y < t.y2
  · rw [if_pos hyc, setRow_getD _ _ _ 0 x _ (by omega)]
    simp only [Nat.zero_add]
    by_cases hxc : t.x1 ≤ x ∧ x < t.x2
    · rw [if_pos hxc,
          if_pos (show t.covers y x from ⟨hyc.1, hyc.2, hxc.1, hxc.2⟩)]
    · rw [if_neg hxc,
          if_neg (show ¬ t.covers y x from
            fun hcov => by obtain ⟨_, _, h3, h4⟩ := hcov; exact hxc ⟨h3, h4⟩)]
  · rw [if_neg hyc,
        if_neg (show ¬ t.covers y x from
          fun hcov => by obtain ⟨h1, h2, _, _⟩ := hcov; exact hyc ⟨h1, h2⟩)]

/-! ## `Tower.trim` at the grid level -/

/-- `[x1,x2) × [y1,y2)` is an all-uncovered rectangle contained in tower
`t`'s bounds, in absolute grid coordinates. -/
def rectEmptyIn (g : List (List Nat)) (t : Tower) (x1 x2 y1 y2 : Nat) : Prop :=
  t.x1 ≤ x1 ∧ x1 < x2 ∧ x2 ≤ t.x2 ∧ t.y1 ≤ y1 ∧ y1 < y2 ∧ y2 ≤ t.y2 ∧
    ∀ y, y1 ≤ y → y < y2 → ∀ x, x1 ≤ x → x < x2 → cellAt g y x = 0

instance (g : List (List Nat)) (t : Tower) (x1 x2 y1 y2 : Nat) :
    Decidable (rectEmptyIn g t x1 x2 y1 y2) := by
  have hiff : (t.x1 ≤ x1 ∧ x1 < x2 ∧ x2 ≤ t.x2 ∧ t.y1 ≤ y1 ∧ y1 < y2 ∧ y2 ≤ t.y2 ∧
      ∀ y < y2, y1 ≤ y → ∀ x < x2, x1 ≤ x → cellAt g y x = 0) ↔
      rectEmptyIn g t x1 x2 y1 y2 := by
    unfold rectEmptyIn
    constructor
    · intro ⟨a1, a2, a3, a4, a5, a6, hp⟩
      exact ⟨a1, a2, a3, a4, a5, a6, fun y hy1 hy x hx1 hx => hp y hy hy1 x hx hx1⟩
    · intro ⟨a1, a2, a3, a4, a5, a6, hp⟩
      exact ⟨a1, a2, a3, a4, a5, a6, fun y hy hy1 x hx hx1 => hp y hy1 hy x hx1 hx⟩
  exact decidable_of_iff _ hiff

theorem rectEmpty_sub_iff {g : List (List Nat)} {h w : Nat} {t : Tower}
    (hrect : rectangular g h w) (hb : t.inbounds h w) (a b c d : Nat) :
    rectEmpty (subGrid g t) (t.y2 - t.y1) (t.x2 - t.x1) a b c d ↔
      rectEmptyIn g t (t.x1 + a) (t.x1 + b) (t.y1 + c) (t.y1 + d) := by
  obtain ⟨hx12, hx2, hy12, hy2⟩ := hb
  constructor
  · intro ⟨hab, hbw, hcd, hdh, hcells⟩
    refine ⟨by omega, by omega, by omega, by omega, by omega, by omega, ?_⟩
    intro y hy1 hy x hx1 hx
    have hr : y - t.y1 < t.y2 - t.y1 := by omega
    have hcc : x - t.x1 < t.x2 - t.x1 := by omega
    have := hcells (y - t.y1) (by omega) (x - t.x1) (by omega) (by omega) (by omega)
    rw [subGrid_cellAt hrect ⟨hx12, hx2, hy12, hy2⟩ hr hcc] at this
    have hye : t.y1 + (y - t.y1) = y := by omega
    have hxe : t.x1 + (x - t.x1) = x := by omega
    rwa [hye, hxe] at this
  · intro ⟨h1, h2, h3, h4, h5, h6, hcells⟩
    refine ⟨by omega, by omega, by omega, by omega, ?_⟩
    intro r hr cc hcc hcr hacc
    rw [subGrid_cellAt hrect ⟨hx12, hx2, hy12, hy2⟩ (by omega) (by omega)]
    exact hcells (t.y1 + r) (by omega) (by omega) (t.x1 + cc) (by omega) (by omega)

/-- Master lemma for a successful trim: when the candidate's region holds
an uncovered cell, `trim` succeeds, returns the solver unchanged, keeps
the tower's identity and rank, shrinks the bounds inside the original
ones onto an all-uncovered rectangle, and that rectangle has maximum area
among all all-uncovered rectangles inside the original bounds. -/
theorem trim_ok {s : Solver} {t : Tower}
    (hrect : rectangular s.coverage s.height s.width)
    (hb : t.inbounds s.height s.width)
    {y0 x0 : Nat} (hc : t.covers y0 x0) (hz : cellAt s.coverage y0 x0 = 0) :
    ∃ t', Tower.trim t s = .ok (s, t') ∧
      t'.solverId = t.solverId ∧ t'.rank = t.rank ∧
      t.x1 ≤ t'.x1 ∧ t'.x1 < t'.x2 ∧ t'.x2 ≤ t.x2 ∧
      t.y1 ≤ t'.y1 ∧ t'.y1 < t'.y2 ∧ t'.y2 ≤ t.y2 ∧
      rectEmptyIn s.coverage t t'.x1 t'.x2 t'.y1 t'.y2 ∧
      ∀ x1 x2 y1 y2, rectEmptyIn s.coverage t x1 x2 y1 y2 →
        (x2 - x1) * (y2 - y1) ≤ (t'.x2 - t'.x1) * (t'.y2 - t'.y1) := by
  obtain ⟨hbx12, hbx2, hby12, hby2⟩ := hb
  obtain ⟨hcy1, hcy2, hcx1, hcx2⟩ := hc
  have hsub := subGrid_rectangular hrect ⟨hbx12, hbx2, hby12, hby2⟩
  have hr0 : y0 - t.y1 < t.y2 - t.y1 := by omega
  have hc0 : x0 - t.x1 < t.x2 - t.x1 := by omega
  have hz0 : cellAt (subGrid s.coverage t) (y0 - t.y1) (x0 - t.x1) = 0 := by
    rw [subGrid_cellAt hrect ⟨hbx12, hbx2, hby12, hby2⟩ hr0 hc0]
    have hye : t.y1 + (y0 - t.y1) = y0 := by omega
    have hxe : t.x1 + (x0 - t.x1) = x0 := by omega
    rw [hye, hxe]
    exact hz
  have hnotall : ¬ (allCoveredB (subGrid s.coverage t) = true) := by
    intro hT
    exact (allCoveredB_iff hsub).mp hT _ hr0 _ hc0 hz0
  obtain ⟨a, b, c, d, hcoords, hre, harea, hmax⟩ :=
    trimCore_spec (subGrid s.coverage t) (t.y2 - t.y1) (t.x2 - t.x1) hsub
      (y0 - t.y1) (x0 - t.x1) hr0 hc0 hz0
  have hab : a < b := hre.1
  have hbw : b ≤ t.x2 - t.x1 := hre.2.1
  have hcd : c < d := hre.2.2.1
  have hdh : d ≤ t.y2 - t.y1 := hre.2.2.2.1
  refine ⟨{ t with x1 := t.x1 + a, x2 := t.x1 + b, y1 := t.y1 + c, y2 := t.y1 + d },
    ?_, rfl, rfl, by simp, by simp; omega, by simp; omega,
    by simp, by simp; omega, by simp; omega, ?_, ?_⟩
  · show Tower.trim t s = _
    unfold Tower.trim
    rw [if_neg (by simpa using hnotall)]
    simp only [hcoords]
    rw [if_pos (⟨by omega, by omega, by omega, by omega⟩ :
      t.x1 + a < t.x1 + b ∧ t.x1 + b ≤ s.width ∧ t.y1 + c < t.y1 + d ∧ t.y1 + d ≤ s.height)]
  · exact (rectEmpty_sub_iff hrect ⟨hbx12, hbx2, hby12, hby2⟩ a b c d).mp hre
  · intro x1 x2 y1 y2 hin
    obtain ⟨h1, h2, h3, h4, h5, h6, hcells⟩ := hin
    have hre2 : rectEmpty (subGrid s.coverage t) (t.y2 - t.y1) (t.x2 - t.x1)
        (x1 - t.x1) (x2 - t.x1) (y1 - t.y1) (y2 - t.y1) := by
      rw [rectEmpty_sub_iff hrect ⟨hbx12, hbx2, hby12, hby2⟩]
      have he1 : t.x1 + (x1 - t.x1) = x1 := by omega
      have he2 : t.x1 + (x2 - t.x1) = x2 := by omega
      have he3 : t.y1 + (y1 - t.y1) = y1 := by omega
      have he4 : t.y1 + (y2 - t.y1) = y2 := by omega
      rw [he1, he2, he3, he4]
      exact ⟨h1, h2, h3, h4, h5, h6, hcells⟩
    have hfin := hmax _ _ _ _ hre2
    have he5 : x2 - t.x1 - (x1 - t.x1) = x2 - x1 := by omega
    have he6 : y2 - t.y1 - (y1 - t.y1) = y2 - y1 := by omega
    rw [he5, he6] at hfin
    show (x2 - x1) * (y2 - y1) ≤ (t.x1 + b - (t.x1 + a)) * (t.y1 + d - (t.y1 + c))
    have he7 : t.x1 + b - (t.x1 + a) = b - a := by omega
    have he8 : t.y1 + d - (t.y1 + c) = d - c := by omega
    rw [he7, he8]
    exact hfin

/-- `trim` raises exactly when every cell of the candidate's region is
covered (the defensive precondition check); with an uncovered cell in the
region it always returns successfully.  In the embedding an error carries
no state, matching the source where the exception leaves `self` and the
grid untouched (no write occurs before the raise). -/
theorem trim_error_iff {s : Solver} {t : Tower}
    (hrect : rectangular s.coverage s.height s.width)
    (hb : t.inbounds s.height s.width) :
    (∃ e, Tower.trim t s = .error e) ↔
      ∀ y x, t.covers y x → cellAt s.coverage y x ≠ 0 := by
  constructor
  · intro ⟨e, he⟩ y x hcov hz
    obtain ⟨t', hok, _⟩ := trim_ok hrect hb hcov hz
    rw [hok] at he
    exact Except.noConfusion he
  · intro hall
    refine ⟨"The entire current space has been covered.", ?_⟩
    have hsub := subGrid_rectangular hrect hb
    have hT : allCoveredB (subGrid s.coverage t) = true := by
      rw [allCoveredB_iff hsub]
      intro r hr x hx
      rw [subGrid_cellAt hrect hb hr hx]
      refine hall _ _ ⟨by omega, by omega, by omega, by omega⟩
    unfold Tower.trim
    rw [if_pos hT]

/-- The constructor invariant: any tower accepted by `Tower.__init__` for a
solver is in bounds for the dimensions of the solver it names. -/
def TowerWF (t : Tower) (s : Solver) : Prop :=
  t.solverId = s.sid → t.inbounds s.height s.width

theorem create_tower_wf {s : Solver} {x1 x2 y1 y2 : Int} {t : Tower}
    (h : s.create_tower x1 x2 y1 y2 = .ok t) :
    t.solverId = s.sid ∧ t.inbounds s.height s.width ∧ t.rank = none := by
  unfold Solver.create_tower at h
  split at h
  · split at h
    · simp only [Except.ok.injEq] at h
      subst h
      rename_i hx hy
      refine ⟨rfl, ⟨by simp; omega, by simp; omega, by simp; omega, by simp; omega⟩, rfl⟩
    · exact Except.noConfusion h
  · exact Except.noConfusion h

theorem add_tower_not_for {s : Solver} {t : Tower} (h : ¬ t.is_for s = true) :
    s.add_tower t = .error "The tower was not created for the solver" := by
  unfold Solver.add_tower
  rw [if_pos (by simpa using h)]

theorem add_tower_overlap {s : Solver} {t : Tower} (hfor : t.is_for s = true)
    (hov : anyCoveredB (subGrid s.coverage t) = true) :
    s.add_tower t = .error "New tower overlaps with the current coverage" := by
  unfold Solver.add_tower
  rw [if_neg (by simpa using hfor), if_pos hov]

theorem add_tower_success {s : Solver} {t : Tower} (hfor : t.is_for s = true)
    (hov : anyCoveredB (subGrid s.coverage t) = false) :
    s.add_tower t = .ok
      { s with num_tower := s.num_tower + 1,
               tower_list := s.tower_list ++ [{ t with rank := some (s.num_tower + 1) }],
               coverage := markRect s.coverage t (s.num_tower + 1) } := by
  unfold Solver.add_tower
  rw [if_neg (by simpa using hfor), if_neg (by simp [hov])]

/-- The overlap test of `add_tower` in terms of cells: no covered cell in
the candidate's region. -/
theorem noOverlap_iff {s : Solver} {t : Tower}
    (hrect : rectangular s.coverage s.height s.width)
    (hb : t.inbounds s.height s.width) :
    anyCoveredB (subGrid s.coverage t) = false ↔
      ∀ y x, t.covers y x → cellAt s.coverage y x = 0 := by
  have hsub := subGrid_rectangular hrect hb
  constructor
  · intro hF y x hcov
    by_contra hz
    have hT : anyCoveredB (subGrid s.coverage t) = true := by
      rw [anyCoveredB_iff hsub]
      obtain ⟨h1, h2, h3, h4⟩ := hcov
      refine ⟨y - t.y1, by omega, x - t.x1, by omega, ?_⟩
      rw [subGrid_cellAt hrect hb (by omega) (by omega)]
      have he1 : t.y1 + (y - t.y1) = y := by omega
      have he2 : t.x1 + (x - t.x1) = x := by omega
      rw [he1, he2]
      exact hz
    rw [hF] at hT
    exact Bool.false_ne_true hT
  · intro hall
    rcases hA : anyCoveredB (subGrid s.coverage t) with _ | _
    · rfl
    · exfalso
      obtain ⟨r, hr, c, hc, hne⟩ := (anyCoveredB_iff hsub).mp hA
      rw [subGrid_cellAt hrect hb hr hc] at hne
      exact hne (hall _ _ ⟨by omega, by omega, by omega, by omega⟩)

/-! ## The solver invariant over a trial -/

/-- State invariant maintained over one trial: rectangular coverage,
tower count equal to the list length, rank `i + 1` at list position `i`,
committed towers in bounds and owned by this solver, each cell marked by
exactly the rank of any committed tower covering it, and every marked
cell covered by some committed tower. -/
structure SolverInv (s : Solver) : Prop where
  rect : rectangular s.coverage s.height s.width
  count : s.tower_list.length = s.num_tower
  ranks : ∀ i (hi : i < s.tower_list.length), (s.tower_list[i]).rank = some (i + 1)
  twwf : ∀ tw ∈ s.tower_list, tw.inbounds s.height s.width ∧ tw.solverId = s.sid
  own : ∀ y, y < s.height → ∀ x, x < s.width → ∀ i (hi : i < s.tower_list.length),
      (s.tower_list[i]).covers y x → cellAt s.coverage y x = i + 1
  cov : ∀ y, y < s.height → ∀ x, x < s.width → cellAt s.coverage y x ≠ 0 →
      ∃ i, ∃ hi : i < s.tower_list.length, (s.tower_list[i]).covers y x

theorem getD_replicate_row {h y : Nat} {r d : List Nat} (hy : y < h) :
    (List.replicate h r).getD y d = r := by
  rw [List.getD_eq_getElem _ _ (by simpa using hy)]
  simp

theorem clear_rect (s : Solver) :
    rectangular (s.clear).coverage s.height s.width := by
  constructor
  · simp [Solver.clear]
  · intro row hrow
    have := List.eq_of_mem_replicate hrow
    simp [this]

theorem clear_cellAt (s : Solver) {y x : Nat} (hy : y < s.height) :
    cellAt (s.clear).coverage y x = 0 := by
  unfold cellAt Solver.clear
  simp only
  rw [getD_replicate_row hy]
  exact replicate_getD _ _

theorem clear_inv (s : Solver) : SolverInv s.clear := by
  refine ⟨clear_rect s, rfl, ?_, ?_, ?_, ?_⟩
  · intro i hi; simp [Solver.clear] at hi
  · intro tw htw; simp [Solver.clear] at htw
  · intro y hy x hx i hi; simp [Solver.clear] at hi
  · intro y hy x hx hne
    exact absurd (clear_cellAt s hy) hne

/-- The uncovered cells of the grid, as a finite set. -/
def uncovSet (g : List (List Nat)) (h w : Nat) : Finset (Nat × Nat) :=
  (Finset.range h ×ˢ Finset.range w).filter (fun p => cellAt g p.1 p.2 = 0)

theorem uncovSet_card_le (g : List (List Nat)) (h w : Nat) :
    (uncovSet g h w).card ≤ h * w := by
  calc (uncovSet g h w).card ≤ (Finset.range h ×ˢ Finset.range w).card :=
        Finset.card_filter_le _ _
    _ = h * w := by simp

/-- What a successful `add_tower` does to the state, given the invariant. -/
theorem add_tower_inv {s : Solver} {t : Tower} {s' : Solver} (hinv : SolverInv s)
    (hb : t.inbounds s.height s.width) (hok : s.add_tower t = .ok s') :
    SolverInv s' ∧
      s'.height = s.height ∧ s'.width = s.width ∧ s'.sid = s.sid ∧
      s'.num_tower = s.num_tower + 1 ∧
      (∃ y x, t.covers y x ∧ cellAt s.coverage y x = 0) ∧
      (uncovSet s'.coverage s.height s.width).card <
        (uncovSet s.coverage s.height s.width).card := by
  have hfor : t.is_for s = true := by
    by_contra hne
    rw [add_tower_not_for hne] at hok
    exact Except.noConfusion hok
  have hov : anyCoveredB (subGrid s.coverage t) = false := by
    rcases hA : anyCoveredB (subGrid s.coverage t) with _ | _
    · rfl
    · rw [add_tower_overlap hfor hA] at hok
      exact Except.noConfusion hok
  have hempty : ∀ y x, t.covers y x → cellAt s.coverage y x = 0 :=
    (noOverlap_iff hinv.rect hb).mp hov
  rw [add_tower_success hfor hov] at hok
  have hs' : s' = { s with
      num_tower := s.num_tower + 1,
      tower_list := s.tower_list ++ [{ t with rank := some (s.num_tower + 1) }],
      coverage := markRect s.coverage t (s.num_tower + 1) } := by
    simpa using hok.symm
  subst hs'
  obtain ⟨hbx12, hbx2, hby12, hby2⟩ := hb
  have hsid : t.solverId = s.sid := by simpa [Tower.is_for] using hfor
  have hcell' : ∀ y, y < s.height → ∀ x, x < s.width →
      cellAt (markRect s.coverage t (s.num_tower + 1)) y x =
        if t.covers y x then s.num_tower + 1 else cellAt s.coverage y x :=
    fun y hy x hx => markRect_cellAt hinv.rect hy hx
  have hlen : (s.tower_list ++ [{ t with rank := some (s.num_tower + 1) }]).length =
      s.tower_list.length + 1 := by simp
  refine ⟨⟨markRect_rectangular hinv.rect, ?_, ?_, ?_, ?_, ?_⟩, rfl, rfl, rfl, rfl, ?_, ?_⟩
  · simp [hinv.count]
  · -- ranks
    intro i hi
    rw [hlen] at hi
    rcases Nat.lt_or_ge i s.tower_list.length with hio | hie
    · have hi2 : i < (s.tower_list ++ [{ t with rank := some (s.num_tower + 1) }]).length := by
        simpa using hi
      have : (s.tower_list ++ [{ t with rank := some (s.num_tower + 1) }])[i] =
          s.tower_list[i] := List.getElem_append_left hio
      rw [this]
      exact hinv.ranks i hio
    · have hieq : i = s.tower_list.length := by omega
      subst hieq
      have hi2 : s.tower_list.length <
          (s.tower_list ++ [{ t with rank := some (s.num_tower + 1) }]).length := by simp
      have : (s.tower_list ++ [{ t with rank := some (s.num_tower + 1) }])[s.tower_list.length] =
          { t with rank := some (s.num_tower + 1) } := by
        rw [List.getElem_append_right (by omega)]
        simp
      rw [this, hinv.count]
  · -- towers well-formed
    intro tw htw
    simp only [List.mem_append, List.mem_singleton] at htw
    rcases htw with h | h
    · exact hinv.twwf tw h
    · subst h
      exact ⟨⟨hbx12, hbx2, hby12, hby2⟩, hsid⟩
  · -- ownership
    intro y hy x hx i hi hcov
    rw [hlen] at hi
    show cellAt (markRect s.coverage t (s.num_tower + 1)) y x = i + 1
    rw [hcell' y hy x hx]
    rcases Nat.lt_or_ge i s.tower_list.length with hio | hie
    · have hi2 : i < (s.tower_list ++ [{ t with rank := some (s.num_tower + 1) }]).length := by
        simpa using hi
      have hgete : (s.tower_list ++ [{ t with rank := some (s.num_tower + 1) }])[i] =
          s.tower_list[i] := List.getElem_append_left hio
      rw [hgete] at hcov
      have hold := hinv.own y hy x hx i hio hcov
      rw [if_neg ?_]
      · exact hold
      · intro htc
        have := hempty y x htc
        omega
    · have hieq : i = s.tower_list.length := by omega
      subst hieq
      have hi2 : s.tower_list.length <
          (s.tower_list ++ [{ t with rank := some (s.num_tower + 1) }]).length := by simp
      have hgete : (s.tower_list ++ [{ t with rank := some (s.num_tower + 1) }])[s.tower_list.length] =
          { t with rank := some (s.num_tower + 1) } := by
        rw [List.getElem_append_right (by omega)]
        simp
      rw [hgete] at hcov
      have htc : t.covers y x := hcov
      rw [if_pos htc, hinv.count]
  · -- coverage of marked cells
    intro y hy x hx hne
    rw [hcell' y hy x hx] at hne
    by_cases htc : t.covers y x
    · refine ⟨s.tower_list.length, by simp, ?_⟩
      have hi2 : s.tower_list.length <
          (s.tower_list ++ [{ t with rank := some (s.num_tower + 1) }]).length := by simp
      have hgete : (s.tower_list ++ [{ t with rank := some (s.num_tower + 1) }])[s.tower_list.length] =
          { t with rank := some (s.num_tower + 1) } := by
        rw [List.getElem_append_right (by omega)]
        simp
      rw [hgete]
      exact htc
    · rw [if_neg htc] at hne
      obtain ⟨i, hi, hcov⟩ := hinv.cov y hy x hx hne
      refine ⟨i, by simp; omega, ?_⟩
      have hi2 : i < (s.tower_list ++ [{ t with rank := some (s.num_tower + 1) }]).length := by
        simp
        omega
      have hgete : (s.tower_list ++ [{ t with rank := some (s.num_tower + 1) }])[i] =
          s.tower_list[i] := List.getElem_append_left hi
      rw [hgete]
      exact hcov
  · exact ⟨t.y1, t.x1, ⟨le_rfl, hby12, le_rfl, hbx12⟩,
      hempty t.y1 t.x1 ⟨le_rfl, hby12, le_rfl, hbx12⟩⟩
  · -- uncovered-cell count strictly decreases
    apply Finset.card_lt_card
    constructor
    · intro p hp
      simp only [uncovSet, Finset.mem_filter, Finset.mem_product, Finset.mem_range] at hp ⊢
      obtain ⟨⟨hp1, hp2⟩, hz⟩ := hp
      refine ⟨⟨hp1, hp2⟩, ?_⟩
      rw [hcell' p.1 hp1 p.2 hp2] at hz
      by_cases htc : t.covers p.1 p.2
      · rw [if_pos htc] at hz
        omega
      · rwa [if_neg htc] at hz
    · intro hss
      have hmem : (t.y1, t.x1) ∈ uncovSet s.coverage s.height s.width := by
        simp only [uncovSet, Finset.mem_filter, Finset.mem_product, Finset.mem_range]
        exact ⟨⟨by omega, by omega⟩,
          hempty t.y1 t.x1 ⟨le_rfl, hby12, le_rfl, hbx12⟩⟩
      have := hss hmem
      simp only [uncovSet, Finset.mem_filter, Finset.mem_product, Finset.mem_range] at this
      obtain ⟨_, hz⟩ := this
      rw [hcell' t.y1 (by omega) t.x1 (by omega)] at hz
      rw [if_pos ⟨le_rfl, hby12, le_rfl, hbx12⟩] at hz
      omega

theorem findValid_spec {s : Solver} : ∀ (cands : List Tower) {t : Tower} {rest : List Tower},
    findValid s cands = some (t, rest) →
    t ∈ cands ∧ (∀ u ∈ rest, u ∈ cands) ∧ allCoveredB (subGrid s.coverage t) = false := by
  intro cands
  induction cands with
  | nil => intro t rest h; simp [findValid] at h
  | cons c cs ih =>
      intro t rest h
      unfold findValid at h
      split at h
      · obtain ⟨h1, h2, h3⟩ := ih h
        exact ⟨List.mem_cons_of_mem _ h1, fun u hu => List.mem_cons_of_mem _ (h2 u hu), h3⟩
      · rename_i hcond
        simp only [Option.some.injEq, Prod.mk.injEq] at h
        obtain ⟨he1, he2⟩ := h
        subst he1
        subst he2
        refine ⟨List.mem_cons_self _ _, fun u hu => List.mem_cons_of_mem _ hu, ?_⟩
        simpa using hcond

theorem gen_trimmed_spec {s : Solver} {cands : List Tower} {t1 : Tower} {rest : List Tower}
    (hrect : rectangular s.coverage s.height s.width)
    (hcands : ∀ u ∈ cands, u.solverId = s.sid ∧ u.inbounds s.height s.width)
    (h : s.generate_random_valid_tower_trimmed cands = .ok (some (t1, rest))) :
    t1.solverId = s.sid ∧ t1.inbounds s.height s.width ∧
      (∀ y x, t1.covers y x → cellAt s.coverage y x = 0) ∧
      (∀ u ∈ rest, u.solverId = s.sid ∧ u.inbounds s.height s.width) := by
  rcases hg : s.generate_random_valid_tower_untrimmed cands with e | og
  · unfold Solver.generate_random_valid_tower_trimmed at h
    rw [hg] at h
    exact Except.noConfusion h
  · rcases og with _ | ⟨t, rest0⟩
    · unfold Solver.generate_random_valid_tower_trimmed at h
      rw [hg] at h
      simp at h
    · have hfv : findValid s cands = some (t, rest0) := by
        unfold Solver.generate_random_valid_tower_untrimmed at hg
        split at hg
        · exact Except.noConfusion hg
        · simpa using hg
      obtain ⟨hmem, hrest0, hnc⟩ := findValid_spec cands hfv
      obtain ⟨hsid, hbnd⟩ := hcands t hmem
      have hsub := subGrid_rectangular hrect hbnd
      obtain ⟨r0, hr0, c0, hc0, hz0⟩ := (allCoveredB_false_iff hsub).mp hnc
      rw [subGrid_cellAt hrect hbnd hr0 hc0] at hz0
      have hcov0 : t.covers (t.y1 + r0) (t.x1 + c0) :=
        ⟨by omega, by omega, by omega, by omega⟩
      obtain ⟨t', hok, hsid', hrank', hcx1, hcx12, hcx2, hcy1, hcy12, hcy2, hre, hmax⟩ :=
        trim_ok hrect hbnd hcov0 hz0
      have hgen2 : s.generate_random_valid_tower_trimmed cands = .ok (some (t', rest0)) := by
        unfold Solver.generate_random_valid_tower_trimmed
        rw [hg]
        show (match t.trim s with
          | Except.error e => Except.error e
          | Except.ok (_, u) => Except.ok (some (u, rest0))) = Except.ok (some (t', rest0))
        rw [hok]
      have hcomb := hgen2.symm.trans h
      simp only [Except.ok.injEq, Option.some.injEq, Prod.mk.injEq] at hcomb
      obtain ⟨he1, he2⟩ := hcomb
      subst he1
      subst he2
      obtain ⟨hbx12, hbx2, hby12, hby2⟩ := hbnd
      obtain ⟨_, _, _, _, _, _, hcells⟩ := hre
      refine ⟨by rw [hsid']; exact hsid, ⟨hcx12, by omega, hcy12, by omega⟩, ?_, ?_⟩
      · intro y x hcov
        obtain ⟨hc1, hc2, hc3, hc4⟩ := hcov
        exact hcells y hc1 hc2 x hc3 hc4
      · intro u hu
        exact hcands u (hrest0 u hu)

theorem solveLoop_spec : ∀ (fuel : Nat) (s : Solver) (cands : List Tower) (s' : Solver),
    SolverInv s →
    (∀ u ∈ cands, u.solverId = s.sid ∧ u.inbounds s.height s.width) →
    solveLoop fuel s cands = some s' →
    SolverInv s' ∧ s'.height = s.height ∧ s'.width = s.width ∧ s'.sid = s.sid ∧
      allCoveredB s'.coverage = true ∧
      s.num_tower ≤ s'.num_tower ∧
      s'.num_tower + (uncovSet s'.coverage s.height s.width).card ≤
        s.num_tower + (uncovSet s.coverage s.height s.width).card ∧
      (allCoveredB s.coverage = false → s.num_tower < s'.num_tower) := by
  intro fuel
  induction fuel with
  | zero => intro s cands s' _ _ h; exact Option.noConfusion h
  | succ fuel ih =>
      intro s cands s' hinv hcands hrun
      rw [show solveLoop (fuel + 1) s cands =
          (if allCoveredB s.coverage then some s
           else match s.generate_random_valid_tower_trimmed cands with
             | .error _ => none
             | .ok none => none
             | .ok (some (t1, rest)) =>
                 match s.add_tower t1 with
                 | .error _ => none
                 | .ok s1 => solveLoop fuel s1 rest) from rfl] at hrun
      split at hrun
      · rename_i hcov
        simp only [Option.some.injEq] at hrun
        subst hrun
        refine ⟨hinv, rfl, rfl, rfl, by simpa using hcov, le_rfl, le_rfl, ?_⟩
        intro hF
        rw [hF] at hcov
        exact absurd hcov (by simp)
      · rename_i hncov
        split at hrun
        · exact Option.noConfusion hrun
        · exact Option.noConfusion hrun
        · rename_i t1 rest hgen
          split at hrun
          · exact Option.noConfusion hrun
          · rename_i s1 hadd
            obtain ⟨hsid1, hbnd1, hempty1, hrest1⟩ :=
              gen_trimmed_spec hinv.rect hcands hgen
            obtain ⟨hinv1, hh1, hw1, hs1, hn1, _, hdec⟩ :=
              add_tower_inv hinv hbnd1 hadd
            have hcands1 : ∀ u ∈ rest, u.solverId = s1.sid ∧
                u.inbounds s1.height s1.width := by
              intro u hu
              rw [hh1, hw1, hs1]
              exact hrest1 u hu
            obtain ⟨hinv', hh', hw', hs', hcov', hmono', hcount', _⟩ :=
              ih s1 rest s' hinv1 hcands1 hrun
            rw [hh1] at hh'
            rw [hw1] at hw'
            rw [hs1] at hs'
            refine ⟨hinv', hh', hw', hs', hcov', by omega, ?_, by omega⟩
            rw [hh1, hw1] at hcount'
            omega

/-! ## Claim theorems -/

/-- **C1.**  For every grid occupancy and every candidate tower whose
region `[x1,x2) × [y1,y2)` contains at least one uncovered cell,
`Tower.trim` shrinks the candidate's bounds to an axis-aligned
sub-rectangle of the original bounds that is composed entirely of
uncovered cells and whose area equals the maximum area over all
all-uncovered axis-aligned sub-rectangles contained in the original
bounds, translated into absolute grid coordinates. -/
theorem trim_computes_maximal_empty_rectangle (s : Solver) (t : Tower)
    (hrect : rectangular s.coverage s.height s.width)
    (hb : t.inbounds s.height s.width)
    (y0 x0 : Nat) (hc : t.covers y0 x0) (hz : cellAt s.coverage y0 x0 = 0) :
    ∃ t', Tower.trim t s = .ok (s, t') ∧
      t.x1 ≤ t'.x1 ∧ t'.x1 < t'.x2 ∧ t'.x2 ≤ t.x2 ∧
      t.y1 ≤ t'.y1 ∧ t'.y1 < t'.y2 ∧ t'.y2 ≤ t.y2 ∧
      rectEmptyIn s.coverage t t'.x1 t'.x2 t'.y1 t'.y2 ∧
      ∀ x1 x2 y1 y2, rectEmptyIn s.coverage t x1 x2 y1 y2 →
        (x2 - x1) * (y2 - y1) ≤ (t'.x2 - t'.x1) * (t'.y2 - t'.y1) := by
  obtain ⟨t', h1, _, _, h3, h4, h5, h6, h7, h8, h9, h10⟩ := trim_ok hrect hb hc hz
  exact ⟨t', h1, h3, h4, h5, h6, h7, h8, h9, h10⟩

theorem trim_computes_maximal_empty_rectangle_witness :
    rectangular [[1, 0], [0, 0]] 2 2 ∧
    Tower.inbounds ⟨0, 0, 2, 0, 2, none⟩ 2 2 ∧
    Tower.covers ⟨0, 0, 2, 0, 2, none⟩ 0 1 ∧
    cellAt [[1, 0], [0, 0]] 0 1 = 0 ∧
    (∃ t', Tower.trim ⟨0, 0, 2, 0, 2, none⟩ ⟨0, 2, 2, [[1, 0], [0, 0]], 0, []⟩ =
        .ok (⟨0, 2, 2, [[1, 0], [0, 0]], 0, []⟩, t') ∧
      (0 : Nat) ≤ t'.x1 ∧ t'.x1 < t'.x2 ∧ t'.x2 ≤ 2 ∧
      (0 : Nat) ≤ t'.y1 ∧ t'.y1 < t'.y2 ∧ t'.y2 ≤ 2 ∧
      rectEmptyIn [[1, 0], [0, 0]] ⟨0, 0, 2, 0, 2, none⟩ t'.x1 t'.x2 t'.y1 t'.y2 ∧
      ∀ x1 x2 y1 y2, rectEmptyIn [[1, 0], [0, 0]] ⟨0, 0, 2, 0, 2, none⟩ x1 x2 y1 y2 →
        (x2 - x1) * (y2 - y1) ≤ (t'.x2 - t'.x1) * (t'.y2 - t'.y1)) :=
  ⟨by decide, by decide, by decide, by decide,
    trim_computes_maximal_empty_rectangle ⟨0, 2, 2, [[1, 0], [0, 0]], 0, []⟩
      ⟨0, 0, 2, 0, 2, none⟩ (by decide) (by decide) 0 1 (by decide) (by decide)⟩

/-- **C4.**  For every candidate tower whose region contains at least one
uncovered cell, after `Tower.trim` returns, the resulting bounds satisfy
`0 ≤ x1 < x2 ≤ width` and `0 ≤ y1 < y2 ≤ height` (the `0 ≤` parts are
automatic over `Nat`), lie within the candidate's original bounds, and the
resulting rectangle contains no covered cell. -/
theorem trim_postcondition_valid_bounds (s : Solver) (t : Tower)
    (hrect : rectangular s.coverage s.height s.width)
    (hb : t.inbounds s.height s.width)
    (y0 x0 : Nat) (hc : t.covers y0 x0) (hz : cellAt s.coverage y0 x0 = 0) :
    ∃ t', Tower.trim t s = .ok (s, t') ∧
      t'.x1 < t'.x2 ∧ t'.x2 ≤ s.width ∧ t'.y1 < t'.y2 ∧ t'.y2 ≤ s.height ∧
      t.x1 ≤ t'.x1 ∧ t'.x2 ≤ t.x2 ∧ t.y1 ≤ t'.y1 ∧ t'.y2 ≤ t.y2 ∧
      ∀ y x, t'.covers y x → cellAt s.coverage y x = 0 := by
  obtain ⟨t', h1, _, _, h3, h4, h5, h6, h7, h8, h9, h10⟩ := trim_ok hrect hb hc hz
  obtain ⟨hbx12, hbx2, hby12, hby2⟩ := hb
  obtain ⟨_, _, _, _, _, _, hcells⟩ := h9
  refine ⟨t', h1, h4, by omega, h7, by omega, h3, h5, h6, h8, ?_⟩
  intro y x hcov
  obtain ⟨hc1, hc2, hc3, hc4⟩ := hcov
  exact hcells y hc1 hc2 x hc3 hc4

theorem trim_postcondition_valid_bounds_witness :
    rectangular [[1, 0], [0, 0]] 2 2 ∧
    Tower.inbounds ⟨0, 1, 2, 0, 2, none⟩ 2 2 ∧
    Tower.covers ⟨0, 1, 2, 0, 2, none⟩ 1 1 ∧
    cellAt [[1, 0], [0, 0]] 1 1 = 0 ∧
    (∃ t', Tower.trim ⟨0, 1, 2, 0, 2, none⟩ ⟨0, 2, 2, [[1, 0], [0, 0]], 0, []⟩ =
        .ok (⟨0, 2, 2, [[1, 0], [0, 0]], 0, []⟩, t') ∧
      t'.x1 < t'.x2 ∧ t'.x2 ≤ 2 ∧ t'.y1 < t'.y2 ∧ t'.y2 ≤ 2 ∧
      (1 : Nat) ≤ t'.x1 ∧ t'.x2 ≤ 2 ∧ (0 : Nat) ≤ t'.y1 ∧ t'.y2 ≤ 2 ∧
      ∀ y x, t'.covers y x → cellAt [[1, 0], [0, 0]] y x = 0) :=
  ⟨by decide, by decide, by decide, by decide,
    trim_postcondition_valid_bounds ⟨0, 2, 2, [[1, 0], [0, 0]], 0, []⟩
      ⟨0, 1, 2, 0, 2, none⟩ (by decide) (by decide) 1 1 (by decide) (by decide)⟩

/-- **C8.**  `Tower.trim` raises an explicit error if and only if every
cell within the candidate's bounds is already covered; when at least one
cell of the region is uncovered, `trim` completes without error.  In the
embedding an error result carries no updated state: the source raises
before any write to the tower's bounds or to the grid, so the candidate's
bounds, its rank and the solver's state are unchanged on a raise. -/
theorem trim_error_exactly_when_fully_covered (s : Solver) (t : Tower)
    (hrect : rectangular s.coverage s.height s.width)
    (hb : t.inbounds s.height s.width) :
    (∃ e, Tower.trim t s = .error e) ↔
      ∀ y x, t.covers y x → cellAt s.coverage y x ≠ 0 :=
  trim_error_iff hrect hb

theorem trim_error_exactly_when_fully_covered_witness :
    rectangular [[5]] 1 1 ∧
    Tower.inbounds ⟨0, 0, 1, 0, 1, none⟩ 1 1 ∧
    ((∃ e, Tower.trim ⟨0, 0, 1, 0, 1, none⟩ ⟨0, 1, 1, [[5]], 1, []⟩ = .error e) ↔
      ∀ y x, Tower.covers ⟨0, 0, 1, 0, 1, none⟩ y x → cellAt [[5]] y x ≠ 0) :=
  ⟨by decide, by decide,
    trim_error_exactly_when_fully_covered ⟨0, 1, 1, [[5]], 1, []⟩
      ⟨0, 0, 1, 0, 1, none⟩ (by decide) (by decide)⟩

/-- **C10.**  A successful call to `Tower.trim` modifies only the tower's
bounds `x1, x2, y1, y2`: the solver (its coverage array, `num_tower` and
`tower_list`) is returned unchanged, and the tower's rank and solver
back-reference are unchanged. -/
theorem trim_modifies_only_bounds (s : Solver) (t : Tower) (s' : Solver) (t' : Tower)
    (h : Tower.trim t s = .ok (s', t')) :
    s' = s ∧ t'.rank = t.rank ∧ t'.solverId = t.solverId := by
  simp only [Tower.trim] at h
  split at h
  · exact Except.noConfusion h
  · split at h
    · exact Except.noConfusion h
    · split at h
      · simp only [Except.ok.injEq, Prod.mk.injEq] at h
        obtain ⟨h1, h2⟩ := h
        refine ⟨h1.symm, ?_, ?_⟩ <;> rw [← h2]
      · exact Except.noConfusion h

theorem trim_modifies_only_bounds_witness :
    Tower.trim ⟨0, 0, 3, 0, 1, none⟩ ⟨0, 1, 3, [[0, 7, 0]], 0, []⟩ =
      .ok (⟨0, 1, 3, [[0, 7, 0]], 0, []⟩, ⟨0, 0, 1, 0, 1, none⟩) ∧
    ((⟨0, 1, 3, [[0, 7, 0]], 0, []⟩ : Solver) = ⟨0, 1, 3, [[0, 7, 0]], 0, []⟩ ∧
      (⟨0, 0, 1, 0, 1, none⟩ : Tower).rank = (⟨0, 0, 3, 0, 1, none⟩ : Tower).rank ∧
      (⟨0, 0, 1, 0, 1, none⟩ : Tower).solverId = (⟨0, 0, 3, 0, 1, none⟩ : Tower).solverId) :=
  ⟨rfl, trim_modifies_only_bounds ⟨0, 1, 3, [[0, 7, 0]], 0, []⟩ ⟨0, 0, 3, 0, 1, none⟩
    ⟨0, 1, 3, [[0, 7, 0]], 0, []⟩ ⟨0, 0, 1, 0, 1, none⟩ rfl⟩

/-- **C5.**  `Solver.add_tower` fails (raising an error, and — the errors
being raised before any write in the source — leaving coverage,
`num_tower` and `tower_list` unchanged) whenever the candidate was not
created for this solver, or overlaps existing coverage, or is out of
bounds (constructor-valid towers are in bounds for their own solver, so an
out-of-bounds candidate necessarily belongs to a different solver and is
rejected); on success it assigns rank `num_tower + 1`, appends the ranked
tower, marks every cell in its bounds with that rank and increments the
tower count. -/
theorem add_tower_error_and_success (s : Solver) (t : Tower)
    (hrect : rectangular s.coverage s.height s.width) :
    (¬ t.is_for s = true →
      s.add_tower t = .error "The tower was not created for the solver") ∧
    (anyCoveredB (subGrid s.coverage t) = true → ∃ e, s.add_tower t = .error e) ∧
    (TowerWF t s → ¬ t.inbounds s.height s.width → ∃ e, s.add_tower t = .error e) ∧
    (t.is_for s = true → anyCoveredB (subGrid s.coverage t) = false →
      ∃ s', s.add_tower t = .ok s' ∧
        s'.num_tower = s.num_tower + 1 ∧
        s'.tower_list = s.tower_list ++ [{ t with rank := some (s.num_tower + 1) }] ∧
        s'.height = s.height ∧ s'.width = s.width ∧ s'.sid = s.sid ∧
        ∀ y, y < s.height → ∀ x, x < s.width →
          cellAt s'.coverage y x =
            if t.covers y x then s.num_tower + 1 else cellAt s.coverage y x) := by
  refine ⟨add_tower_not_for, ?_, ?_, ?_⟩
  · intro hov
    rcases hf : t.is_for s with _ | _
    · exact ⟨_, add_tower_not_for (by simp [hf])⟩
    · exact ⟨_, add_tower_overlap hf hov⟩
  · intro hwf hnb
    have hns : ¬ t.is_for s = true := by
      intro hf
      exact hnb (hwf (by simpa [Tower.is_for] using hf))
    exact ⟨_, add_tower_not_for hns⟩
  · intro hfor hov
    refine ⟨_, add_tower_success hfor hov, rfl, rfl, rfl, rfl, rfl, ?_⟩
    intro y hy x hx
    exact markRect_cellAt hrect hy hx

theorem add_tower_error_and_success_witness :
    rectangular [[0, 0]] 1 2 ∧
    ((¬ Tower.is_for ⟨0, 0, 1, 0, 1, none⟩ ⟨0, 1, 2, [[0, 0]], 0, []⟩ = true →
      Solver.add_tower ⟨0, 1, 2, [[0, 0]], 0, []⟩ ⟨0, 0, 1, 0, 1, none⟩ =
        .error "The tower was not created for the solver") ∧
    (anyCoveredB (subGrid [[0, 0]] ⟨0, 0, 1, 0, 1, none⟩) = true →
      ∃ e, Solver.add_tower ⟨0, 1, 2, [[0, 0]], 0, []⟩ ⟨0, 0, 1, 0, 1, none⟩ = .error e) ∧
    (TowerWF ⟨0, 0, 1, 0, 1, none⟩ ⟨0, 1, 2, [[0, 0]], 0, []⟩ →
      ¬ Tower.inbounds ⟨0, 0, 1, 0, 1, none⟩ 1 2 →
      ∃ e, Solver.add_tower ⟨0, 1, 2, [[0, 0]], 0, []⟩ ⟨0, 0, 1, 0, 1, none⟩ = .error e) ∧
    (Tower.is_for ⟨0, 0, 1, 0, 1, none⟩ ⟨0, 1, 2, [[0, 0]], 0, []⟩ = true →
      anyCoveredB (subGrid [[0, 0]] ⟨0, 0, 1, 0, 1, none⟩) = false →
      ∃ s', Solver.add_tower ⟨0, 1, 2, [[0, 0]], 0, []⟩ ⟨0, 0, 1, 0, 1, none⟩ = .ok s' ∧
        s'.num_tower = 0 + 1 ∧
        s'.tower_list = [] ++ [⟨0, 0, 1, 0, 1, some (0 + 1)⟩] ∧
        s'.height = 1 ∧ s'.width = 2 ∧ s'.sid = 0 ∧
        ∀ y, y < 1 → ∀ x, x < 2 →
          cellAt s'.coverage y x =
            if Tower.covers ⟨0, 0, 1, 0, 1, none⟩ y x then 0 + 1
            else cellAt [[0, 0]] y x)) :=
  ⟨by decide, add_tower_error_and_success ⟨0, 1, 2, [[0, 0]], 0, []⟩
    ⟨0, 0, 1, 0, 1, none⟩ (by decide)⟩

/-- **C9.**  Candidate generation
(`generate_random_valid_tower_untrimmed`) fails with the explicit
"entire space has been covered" error exactly when it is invoked with
every cell of the grid already covered (the unbounded rejection loop is
modelled by the finite candidate stream, so a fully covered grid errors
out instead of looping forever); with an uncovered cell present it never
raises, and any tower it returns comes from the stream and has at least
one uncovered cell in its region.  Generation reads the grid but returns
no modified solver: the source performs no writes. -/
theorem generation_exhausted_gate (s : Solver) (cands : List Tower)
    (hrect : rectangular s.coverage s.height s.width)
    (hcands : ∀ u ∈ cands, u.inbounds s.height s.width) :
    (allCoveredB s.coverage = true →
      s.generate_random_valid_tower_untrimmed cands =
        .error "The entire space has been covered") ∧
    (allCoveredB s.coverage = false →
      (∀ e, s.generate_random_valid_tower_untrimmed cands ≠ .error e) ∧
      ∀ t rest, s.generate_random_valid_tower_untrimmed cands = .ok (some (t, rest)) →
        t ∈ cands ∧ ∃ y x, t.covers y x ∧ cellAt s.coverage y x = 0) := by
  constructor
  · intro hT
    unfold Solver.generate_random_valid_tower_untrimmed
    rw [if_pos hT]
  · intro hF
    constructor
    · intro e he
      unfold Solver.generate_random_valid_tower_untrimmed at he
      rw [if_neg (by simp [hF])] at he
      exact Except.noConfusion he
    · intro t rest hg
      unfold Solver.generate_random_valid_tower_untrimmed at hg
      rw [if_neg (by simp [hF])] at hg
      simp only [Except.ok.injEq] at hg
      obtain ⟨hmem, _, hnc⟩ := findValid_spec cands hg
      have hbnd := hcands t hmem
      have hsub := subGrid_rectangular hrect hbnd
      obtain ⟨r0, hr0, c0, hc0, hz0⟩ := (allCoveredB_false_iff hsub).mp hnc
      rw [subGrid_cellAt hrect hbnd hr0 hc0] at hz0
      exact ⟨hmem, t.y1 + r0, t.x1 + c0,
        ⟨by omega, by omega, by omega, by omega⟩, hz0⟩

theorem generation_exhausted_gate_witness :
    rectangular [[3, 0]] 1 2 ∧
    (∀ u ∈ [(⟨0, 0, 1, 0, 1, none⟩ : Tower), ⟨0, 1, 2, 0, 1, none⟩],
      u.inbounds 1 2) ∧
    ((allCoveredB [[3, 0]] = true →
      Solver.generate_random_valid_tower_untrimmed ⟨0, 1, 2, [[3, 0]], 1, []⟩
        [⟨0, 0, 1, 0, 1, none⟩, ⟨0, 1, 2, 0, 1, none⟩] =
        .error "The entire space has been covered") ∧
    (allCoveredB [[3, 0]] = false →
      (∀ e, Solver.generate_random_valid_tower_untrimmed ⟨0, 1, 2, [[3, 0]], 1, []⟩
        [⟨0, 0, 1, 0, 1, none⟩, ⟨0, 1, 2, 0, 1, none⟩] ≠ .error e) ∧
      ∀ t rest, Solver.generate_random_valid_tower_untrimmed ⟨0, 1, 2, [[3, 0]], 1, []⟩
          [⟨0, 0, 1, 0, 1, none⟩, ⟨0, 1, 2, 0, 1, none⟩] = .ok (some (t, rest)) →
        t ∈ [(⟨0, 0, 1, 0, 1, none⟩ : Tower), ⟨0, 1, 2, 0, 1, none⟩] ∧
        ∃ y x, t.covers y x ∧ cellAt [[3, 0]] y x = 0)) :=
  ⟨by decide, by decide,
    generation_exhausted_gate ⟨0, 1, 2, [[3, 0]], 1, []⟩
      [⟨0, 0, 1, 0, 1, none⟩, ⟨0, 1, 2, 0, 1, none⟩] (by decide) (by decide)⟩

/-- A committed tower covers a previously uncovered cell, so each commit
strictly shrinks the uncovered set (needs only a rectangular grid and an
in-bounds tower, not the full trial invariant). -/
theorem add_tower_progress {s : Solver} {t : Tower} {s' : Solver}
    (hrect : rectangular s.coverage s.height s.width)
    (hb : t.inbounds s.height s.width) (hok : s.add_tower t = .ok s') :
    (∃ y x, t.covers y x ∧ cellAt s.coverage y x = 0) ∧
    (uncovSet s'.coverage s.height s.width).card <
      (uncovSet s.coverage s.height s.width).card := by
  have hfor : t.is_for s = true := by
    by_contra hne
    rw [add_tower_not_for hne] at hok
    exact Except.noConfusion hok
  have hov : anyCoveredB (subGrid s.coverage t) = false := by
    rcases hA : anyCoveredB (subGrid s.coverage t) with _ | _
    · rfl
    · rw [add_tower_overlap hfor hA] at hok
      exact Except.noConfusion hok
  have hempty : ∀ y x, t.covers y x → cellAt s.coverage y x = 0 :=
    (noOverlap_iff hrect hb).mp hov
  rw [add_tower_success hfor hov] at hok
  have hs' : s' = { s with
      num_tower := s.num_tower + 1,
      tower_list := s.tower_list ++ [{ t with rank := some (s.num_tower + 1) }],
      coverage := markRect s.coverage t (s.num_tower + 1) } := by
    simpa using hok.symm
  subst hs'
  obtain ⟨hbx12, hbx2, hby12, hby2⟩ := hb
  have hcell' : ∀ y, y < s.height → ∀ x, x < s.width →
      cellAt (markRect s.coverage t (s.num_tower + 1)) y x =
        if t.covers y x then s.num_tower + 1 else cellAt s.coverage y x :=
    fun y hy x hx => markRect_cellAt hrect hy hx
  constructor
  · exact ⟨t.y1, t.x1, ⟨le_rfl, hby12, le_rfl, hbx12⟩,
      hempty t.y1 t.x1 ⟨le_rfl, hby12, le_rfl, hbx12⟩⟩
  · apply Finset.card_lt_card
    constructor
    · intro p hp
      simp only [uncovSet, Finset.mem_filter, Finset.mem_product, Finset.mem_range] at hp ⊢
      obtain ⟨⟨hp1, hp2⟩, hz⟩ := hp
      refine ⟨⟨hp1, hp2⟩, ?_⟩
      rw [hcell' p.1 hp1 p.2 hp2] at hz
      by_cases htc : t.covers p.1 p.2
      · rw [if_pos htc] at hz
        omega
      · rwa [if_neg htc] at hz
    · intro hss
      have hmem : (t.y1, t.x1) ∈ uncovSet s.coverage s.height s.width := by
        simp only [uncovSet, Finset.mem_filter, Finset.mem_product, Finset.mem_range]
        exact ⟨⟨by omega, by omega⟩,
          hempty t.y1 t.x1 ⟨le_rfl, hby12, le_rfl, hbx12⟩⟩
      have := hss hmem
      simp only [uncovSet, Finset.mem_filter, Finset.mem_product, Finset.mem_range] at this
      obtain ⟨_, hz⟩ := this
      rw [hcell' t.y1 (by omega) t.x1 (by omega)] at hz
      rw [if_pos ⟨le_rfl, hby12, le_rfl, hbx12⟩] at hz
      omega

/-- **C2.**  For every trial — any run of `solve_once`, which performs a
sequence of generate/trim/commit steps from the cleared grid — every pair
of distinct towers committed via `add_tower` have bound rectangles with
empty intersection, and every positive cell value of the coverage grid
equals the rank of exactly one committed tower whose bounds cover that
cell. -/
theorem trial_nonoverlap_and_ownership (s : Solver) (cands : List Tower)
    (fuel : Nat) (s' : Solver) (n : Nat)
    (hcands : ∀ u ∈ cands, u.solverId = s.sid ∧ u.inbounds s.height s.width)
    (hrun : s.solve_once cands fuel = some (s', n)) :
    (∀ i j (hi : i < s'.tower_list.length) (hj : j < s'.tower_list.length),
      i ≠ j → ∀ y x,
        ¬ ((s'.tower_list[i]).covers y x ∧ (s'.tower_list[j]).covers y x)) ∧
    (∀ y, y < s.height → ∀ x, x < s.width → cellAt s'.coverage y x ≠ 0 →
      ∃ i, ∃ hi : i < s'.tower_list.length,
        (s'.tower_list[i]).covers y x ∧
        (s'.tower_list[i]).rank = some (cellAt s'.coverage y x) ∧
        ∀ j (hj : j < s'.tower_list.length),
          (s'.tower_list[j]).covers y x → j = i) := by
  unfold Solver.solve_once at hrun
  cases hsl : solveLoop fuel s.clear cands with
  | none =>
      rw [hsl] at hrun
      simp at hrun
  | some s1 =>
      rw [hsl] at hrun
      have hpair : s1 = s' ∧ s1.num_tower = n := by
        have hps : (some (s1, s1.num_tower) : Option (Solver × Nat)) = some (s', n) := hrun
        simpa using hps
      obtain ⟨he1, _⟩ := hpair
      subst he1
      obtain ⟨hinv, hh, hw, _, _, _, _, _⟩ :=
        solveLoop_spec fuel s.clear cands s1 (clear_inv s) hcands hsl
      constructor
      · rintro i j hi hj hne y x ⟨hci, hcj⟩
        have hmi : s1.tower_list[i] ∈ s1.tower_list := List.getElem_mem _
        obtain ⟨hbi, _⟩ := hinv.twwf _ hmi
        have hci' := hci
        obtain ⟨_, hyc2, _, hxc2⟩ := hci'
        obtain ⟨_, hb2, _, hb4⟩ := hbi
        have hy : y < s1.height := by omega
        have hx : x < s1.width := by omega
        have h1 := hinv.own y hy x hx i hi hci
        have h2 := hinv.own y hy x hx j hj hcj
        omega
      · intro y hy x hx hne
        have hy1 : y < s1.height := by rw [hh]; exact hy
        have hx1 : x < s1.width := by rw [hw]; exact hx
        obtain ⟨i, hi, hcov⟩ := hinv.cov y hy1 x hx1 hne
        refine ⟨i, hi, hcov, ?_, ?_⟩
        · rw [hinv.ranks i hi, hinv.own y hy1 x hx1 i hi hcov]
        · intro j hj hcovj
          have h1 := hinv.own y hy1 x hx1 i hi hcov
          have h2 := hinv.own y hy1 x hx1 j hj hcovj
          omega

theorem trial_nonoverlap_and_ownership_witness :
    (∀ u ∈ ([⟨0, 0, 1, 0, 1, none⟩, ⟨0, 1, 2, 0, 1, none⟩] : List Tower),
      u.solverId = 0 ∧ u.inbounds 1 2) ∧
    Solver.solve_once ⟨0, 1, 2, [[0, 0]], 0, []⟩
      [⟨0, 0, 1, 0, 1, none⟩, ⟨0, 1, 2, 0, 1, none⟩] 5 =
      some (⟨0, 1, 2, [[1, 2]], 2,
        [⟨0, 0, 1, 0, 1, some 1⟩, ⟨0, 1, 2, 0, 1, some 2⟩]⟩, 2) ∧
    ((∀ i j (hi : i < ([⟨0, 0, 1, 0, 1, some 1⟩,
          ⟨0, 1, 2, 0, 1, some 2⟩] : List Tower).length)
        (hj : j < ([⟨0, 0, 1, 0, 1, some 1⟩,
          ⟨0, 1, 2, 0, 1, some 2⟩] : List Tower).length),
      i ≠ j → ∀ y x,
        ¬ ((([⟨0, 0, 1, 0, 1, some 1⟩,
              ⟨0, 1, 2, 0, 1, some 2⟩] : List Tower)[i]).covers y x ∧
           (([⟨0, 0, 1, 0, 1, some 1⟩,
              ⟨0, 1, 2, 0, 1, some 2⟩] : List Tower)[j]).covers y x)) ∧
    (∀ y, y < 1 → ∀ x, x < 2 → cellAt [[1, 2]] y x ≠ 0 →
      ∃ i, ∃ hi : i < ([⟨0, 0, 1, 0, 1, some 1⟩,
          ⟨0, 1, 2, 0, 1, some 2⟩] : List Tower).length,
        (([⟨0, 0, 1, 0, 1, some 1⟩,
            ⟨0, 1, 2, 0, 1, some 2⟩] : List Tower)[i]).covers y x ∧
        (([⟨0, 0, 1, 0, 1, some 1⟩,
            ⟨0, 1, 2, 0, 1, some 2⟩] : List Tower)[i]).rank =
          some (cellAt [[1, 2]] y x) ∧
        ∀ j (hj : j < ([⟨0, 0, 1, 0, 1, some 1⟩,
            ⟨0, 1, 2, 0, 1, some 2⟩] : List Tower).length),
          (([⟨0, 0, 1, 0, 1, some 1⟩,
              ⟨0, 1, 2, 0, 1, some 2⟩] : List Tower)[j]).covers y x → j = i)) :=
  ⟨by decide, by rfl,
    trial_nonoverlap_and_ownership ⟨0, 1, 2, [[0, 0]], 0, []⟩
      [⟨0, 0, 1, 0, 1, none⟩, ⟨0, 1, 2, 0, 1, none⟩] 5
      ⟨0, 1, 2, [[1, 2]], 2, [⟨0, 0, 1, 0, 1, some 1⟩, ⟨0, 1, 2, 0, 1, some 2⟩]⟩ 2
      (by decide) (by rfl)⟩

/-- **C3.**  For every positive height and width, whenever `solve_once`
(`run_trial`) returns, it has first reset the grid to all-uncovered with
tower count zero (the cleared state it starts the loop from is all-zero,
has `num_tower = 0`, no towers, and `solve_once` is by definition the
loop run on exactly that state); on return every cell of the coverage
grid is non-zero and the returned value equals `num_tower`, the number of
towers committed during the trial. -/
theorem run_trial_resets_and_covers (s : Solver) (cands : List Tower)
    (fuel : Nat) (s' : Solver) (n : Nat)
    (_hh : 0 < s.height) (_hw : 0 < s.width)
    (hcands : ∀ u ∈ cands, u.solverId = s.sid ∧ u.inbounds s.height s.width)
    (hrun : s.solve_once cands fuel = some (s', n)) :
    (∀ y, y < s.height → ∀ x, x < s.width → cellAt (s.clear).coverage y x = 0) ∧
    (s.clear).num_tower = 0 ∧ (s.clear).tower_list = [] ∧
    s.solve_once cands fuel =
      (solveLoop fuel s.clear cands).map (fun s1 => (s1, s1.num_tower)) ∧
    s'.height = s.height ∧ s'.width = s.width ∧
    (∀ y, y < s.height → ∀ x, x < s.width → cellAt s'.coverage y x ≠ 0) ∧
    n = s'.num_tower := by
  refine ⟨fun y hy x _ => clear_cellAt s hy, rfl, rfl, rfl, ?_⟩
  unfold Solver.solve_once at hrun
  cases hsl : solveLoop fuel s.clear cands with
  | none =>
      rw [hsl] at hrun
      simp at hrun
  | some s1 =>
      rw [hsl] at hrun
      have hpair : s1 = s' ∧ s1.num_tower = n := by
        have hps : (some (s1, s1.num_tower) : Option (Solver × Nat)) = some (s', n) := hrun
        simpa using hps
      obtain ⟨he1, he2⟩ := hpair
      subst he1
      obtain ⟨hinv, hh', hw', _, hcovB, _, _, _⟩ :=
        solveLoop_spec fuel s.clear cands s1 (clear_inv s) hcands hsl
      refine ⟨hh', hw', ?_, he2.symm⟩
      intro y hy x hx
      exact (allCoveredB_iff hinv.rect).mp hcovB y (by rw [hh']; exact hy)
        x (by rw [hw']; exact hx)

theorem run_trial_resets_and_covers_witness :
    0 < 1 ∧ 0 < 2 ∧
    (∀ u ∈ ([⟨0, 0, 1, 0, 1, none⟩, ⟨0, 1, 2, 0, 1, none⟩] : List Tower),
      u.solverId = 0 ∧ u.inbounds 1 2) ∧
    Solver.solve_once ⟨0, 1, 2, [[0, 0]], 0, []⟩
      [⟨0, 0, 1, 0, 1, none⟩, ⟨0, 1, 2, 0, 1, none⟩] 5 =
      some (⟨0, 1, 2, [[1, 2]], 2,
        [⟨0, 0, 1, 0, 1, some 1⟩, ⟨0, 1, 2, 0, 1, some 2⟩]⟩, 2) ∧
    ((∀ y, y < 1 → ∀ x, x < 2 →
        cellAt ((⟨0, 1, 2, [[0, 0]], 0, []⟩ : Solver).clear).coverage y x = 0) ∧
    ((⟨0, 1, 2, [[0, 0]], 0, []⟩ : Solver).clear).num_tower = 0 ∧
    ((⟨0, 1, 2, [[0, 0]], 0, []⟩ : Solver).clear).tower_list = [] ∧
    Solver.solve_once ⟨0, 1, 2, [[0, 0]], 0, []⟩
      [⟨0, 0, 1, 0, 1, none⟩, ⟨0, 1, 2, 0, 1, none⟩] 5 =
      (solveLoop 5 (⟨0, 1, 2, [[0, 0]], 0, []⟩ : Solver).clear
        [⟨0, 0, 1, 0, 1, none⟩, ⟨0, 1, 2, 0, 1, none⟩]).map
          (fun s1 => (s1, s1.num_tower)) ∧
    (1 : Nat) = 1 ∧ (2 : Nat) = 2 ∧
    (∀ y, y < 1 → ∀ x, x < 2 → cellAt [[1, 2]] y x ≠ 0) ∧
    (2 : Nat) = 2) :=
  ⟨by decide, by decide, by decide, by rfl,
    run_trial_resets_and_covers ⟨0, 1, 2, [[0, 0]], 0, []⟩
      [⟨0, 0, 1, 0, 1, none⟩, ⟨0, 1, 2, 0, 1, none⟩] 5
      ⟨0, 1, 2, [[1, 2]], 2, [⟨0, 0, 1, 0, 1, some 1⟩, ⟨0, 1, 2, 0, 1, some 2⟩]⟩ 2
      (by decide) (by decide) (by decide) (by rfl)⟩

/-- **C7.**  Each tower committed by `add_tower` during a trial covers at
least one cell that was uncovered at the moment of its commit, so the
number of uncovered cells strictly decreases with each commit; and
whenever `solve_once` (`run_trial`) on an `H × W` grid returns, it has
committed at least `1` and at most `H * W` towers. -/
theorem commit_progress_and_termination_bounds :
    (∀ (s : Solver) (t : Tower) (s' : Solver),
      rectangular s.coverage s.height s.width → t.inbounds s.height s.width →
      s.add_tower t = .ok s' →
      (∃ y x, t.covers y x ∧ cellAt s.coverage y x = 0) ∧
      (uncovSet s'.coverage s.height s.width).card <
        (uncovSet s.coverage s.height s.width).card) ∧
    (∀ (s : Solver) (cands : List Tower) (fuel : Nat) (s' : Solver) (n : Nat),
      0 < s.height → 0 < s.width →
      (∀ u ∈ cands, u.solverId = s.sid ∧ u.inbounds s.height s.width) →
      s.solve_once cands fuel = some (s', n) →
      1 ≤ n ∧ n ≤ s.height * s.width) := by
  constructor
  · intro s t s' hrect hb hok
    exact add_tower_progress hrect hb hok
  · intro s cands fuel s' n hh hw hcands hrun
    unfold Solver.solve_once at hrun
    cases hsl : solveLoop fuel s.clear cands with
    | none =>
        rw [hsl] at hrun
        simp at hrun
    | some s1 =>
        rw [hsl] at hrun
        have hpair : s1 = s' ∧ s1.num_tower = n := by
          have hps : (some (s1, s1.num_tower) : Option (Solver × Nat)) = some (s', n) := hrun
          simpa using hps
        obtain ⟨he1, he2⟩ := hpair
        obtain ⟨hinv, hh', hw', _, _, _, hcount, hstrict⟩ :=
          solveLoop_spec fuel s.clear cands s1 (clear_inv s) hcands hsl
        have hF : allCoveredB (s.clear).coverage = false := by
          rw [allCoveredB_false_iff (clear_rect s)]
          exact ⟨0, hh, 0, hw, clear_cellAt s hh⟩
        have h1 := hstrict hF
        have hcn : (s.clear).num_tower = 0 := rfl
        have hch : (s.clear).height = s.height := rfl
        have hcw : (s.clear).width = s.width := rfl
        rw [hcn] at h1
        rw [hcn, hch, hcw] at hcount
        have hle := uncovSet_card_le (s.clear).coverage s.height s.width
        omega

theorem commit_progress_and_termination_bounds_witness :
    (rectangular [[0, 0]] 1 2 ∧
     Tower.inbounds ⟨0, 0, 1, 0, 1, none⟩ 1 2 ∧
     Solver.add_tower ⟨0, 1, 2, [[0, 0]], 0, []⟩ ⟨0, 0, 1, 0, 1, none⟩ =
       .ok ⟨0, 1, 2, [[1, 0]], 1, [⟨0, 0, 1, 0, 1, some 1⟩]⟩ ∧
     ((∃ y x, Tower.covers ⟨0, 0, 1, 0, 1, none⟩ y x ∧ cellAt [[0, 0]] y x = 0) ∧
      (uncovSet [[1, 0]] 1 2).card < (uncovSet [[0, 0]] 1 2).card)) ∧
    (0 < 1 ∧ 0 < 2 ∧
     (∀ u ∈ ([⟨0, 0, 1, 0, 1, none⟩, ⟨0, 1, 2, 0, 1, none⟩] : List Tower),
       u.solverId = 0 ∧ u.inbounds 1 2) ∧
     Solver.solve_once ⟨0, 1, 2, [[0, 0]], 0, []⟩
       [⟨0, 0, 1, 0, 1, none⟩, ⟨0, 1, 2, 0, 1, none⟩] 5 =
       some (⟨0, 1, 2, [[1, 2]], 2,
         [⟨0, 0, 1, 0, 1, some 1⟩, ⟨0, 1, 2, 0, 1, some 2⟩]⟩, 2) ∧
     (1 ≤ 2 ∧ 2 ≤ 1 * 2)) :=
  ⟨⟨by decide, by decide, by rfl,
     commit_progress_and_termination_bounds.1 ⟨0, 1, 2, [[0, 0]], 0, []⟩
       ⟨0, 0, 1, 0, 1, none⟩ ⟨0, 1, 2, [[1, 0]], 1, [⟨0, 0, 1, 0, 1, some 1⟩]⟩
       (by decide) (by decide) (by rfl)⟩,
   ⟨by decide, by decide, by decide, by rfl,
     commit_progress_and_termination_bounds.2 ⟨0, 1, 2, [[0, 0]], 0, []⟩
       [⟨0, 0, 1, 0, 1, none⟩, ⟨0, 1, 2, 0, 1, none⟩] 5
       ⟨0, 1, 2, [[1, 2]], 2, [⟨0, 0, 1, 0, 1, some 1⟩, ⟨0, 1, 2, 0, 1, some 2⟩]⟩ 2
       (by decide) (by decide) (by decide) (by rfl)⟩⟩

/-! ## Tie-break order of the scan: the single-row case

On a single-row region every histogram value is 0 or 1, the stack holds
at most one opening, and the rectangles examined are exactly the maximal
empty runs, left to right.  The following invariant captures that the
recorded maximum is then the leftmost maximum-length run. -/

/-- A (not necessarily maximal) run of consecutive histogram-value-1
columns `[c, d)`. -/
def hRun (hist : List Nat) (c d : Nat) : Prop :=
  c < d ∧ d ≤ hist.length ∧ ∀ i, c ≤ i → i < d → hist.getD i 0 = 1

/-- The run `[c, d)` has been closed by the scan after processing the
first `p` items of `hist ++ [0]`: some zero item at or after its right
end has been consumed. -/
def closedRun (hist : List Nat) (p c d : Nat) : Prop :=
  hRun hist c d ∧ ∃ e, d ≤ e ∧ e < p ∧ (hist ++ [0]).getD e 0 = 0

/-- Invariant of the column scan on a 0/1 histogram, after processing `p`
items: the stack is empty with zero current height outside a run, or
holds exactly the opening of the current run; the recorded maximum is the
initial one while no run is closed, and otherwise records a closed run of
maximum length that is leftmost among closed runs of that length. -/
def scanInv1 (hist : List Nat) (p : Nat) (st : ScanSt) : Prop :=
  ((st.stack = [] ∧ st.ch = 0 ∧ (p = 0 ∨ (hist ++ [0]).getD (p - 1) 0 = 0)) ∨
   (∃ a, st.stack = [(a, 0)] ∧ st.ch = 1 ∧ a < p ∧
      (∀ i, a ≤ i → i < p → (hist ++ [0]).getD i 0 = 1) ∧
      (a = 0 ∨ (hist ++ [0]).getD (a - 1) 0 = 0))) ∧
  ((st.m = { area := -1, coords := none } ∧ ∀ c d, ¬ closedRun hist p c d) ∨
   (∃ a b, st.m.coords = some (a, b, 0, 1) ∧ st.m.area = ((b - a : Nat) : Int) ∧
      closedRun hist p a b ∧
      (∀ c d, closedRun hist p c d → d - c ≤ b - a) ∧
      (∀ c d, closedRun hist p c d → b - a ≤ d - c → a ≤ c)))

theorem appget_lt {hist : List Nat} {i : Nat} (h : i < hist.length) :
    (hist ++ [0]).getD i 0 = hist.getD i 0 :=
  List.getD_append _ _ _ _ h

theorem appget_ge {hist : List Nat} {i : Nat} (h : hist.length ≤ i) :
    (hist ++ [0]).getD i 0 = 0 := by
  rcases Nat.lt_or_ge i (hist ++ [0]).length with hlt | hge
  · have hi : i = hist.length := by simp at hlt; omega
    subst hi
    rw [List.getD_append_right hist [0] 0 hist.length le_rfl]
    simp
  · exact List.getD_eq_default _ _ hge

theorem closedRun_mono {hist : List Nat} {p c d : Nat}
    (h : closedRun hist p c d) : closedRun hist (p + 1) c d := by
  obtain ⟨hr, e, he1, he2, he3⟩ := h
  exact ⟨hr, e, he1, by omega, he3⟩

/-- Processing a non-zero item closes no new run. -/
theorem closedRun_succ_one {hist : List Nat} {p c d : Nat}
    (hone : (hist ++ [0]).getD p 0 = 1)
    (h : closedRun hist (p + 1) c d) : closedRun hist p c d := by
  obtain ⟨hr, e, he1, he2, he3⟩ := h
  refine ⟨hr, e, he1, ?_, he3⟩
  rcases Nat.lt_or_ge e p with h' | h'
  · exact h'
  · have : e = p := by omega
    subst this
    rw [hone] at he3
    exact absurd he3 one_ne_zero

/-- Outside a run (empty stack, previous item zero), a zero item closes
no new run either. -/
theorem closedRun_succ_zero_out {hist : List Nat} {p c d : Nat}
    (hprev : p = 0 ∨ (hist ++ [0]).getD (p - 1) 0 = 0)
    (h : closedRun hist (p + 1) c d) : closedRun hist p c d := by
  obtain ⟨hr, e, he1, he2, he3⟩ := h
  obtain ⟨hcd, hdl, hvals⟩ := hr
  rcases Nat.lt_or_ge e p with h' | h'
  · exact ⟨⟨hcd, hdl, hvals⟩, e, he1, h', he3⟩
  · have hep : e = p := by omega
    rcases hprev with h0 | h0
    · omega
    · rcases Nat.lt_or_ge d p with hdp | hdp
      · exact ⟨⟨hcd, hdl, hvals⟩, p - 1, by omega, by omega, h0⟩
      · have hdeq : d = p := by omega
        have hv := hvals (d - 1) (by omega) (by omega)
        have hlt : d - 1 < hist.length := by omega
        rw [← appget_lt hlt] at hv
        rw [show d - 1 = p - 1 from by omega] at hv
        omega

/-- The processed items of an open run are all ones, so the run extends
at most to the histogram's end. -/
theorem open_run_le_len {hist : List Nat} {a p : Nat} (hap : a < p)
    (hall : ∀ i, a ≤ i → i < p → (hist ++ [0]).getD i 0 = 1) :
    p ≤ hist.length := by
  by_contra hgt
  push_neg at hgt
  rcases Nat.lt_or_ge a hist.length with ha | ha
  · have := hall hist.length (by omega) (by omega)
    rw [appget_ge (le_refl _)] at this
    exact absurd this (by omega)
  · have := hall a (le_refl _) hap
    rw [appget_ge ha] at this
    exact absurd this (by omega)

/-- Closing an open run `[a, p)` with a zero item: every newly closed run
lies inside `[a, p)`. -/
theorem closedRun_succ_zero_in {hist : List Nat} {a p c d : Nat} (hap : a < p)
    (_hall : ∀ i, a ≤ i → i < p → (hist ++ [0]).getD i 0 = 1)
    (hbound : a = 0 ∨ (hist ++ [0]).getD (a - 1) 0 = 0)
    (h : closedRun hist (p + 1) c d) :
    closedRun hist p c d ∨ (a ≤ c ∧ d ≤ p ∧ hRun hist c d) := by
  obtain ⟨hr, e, he1, he2, he3⟩ := h
  obtain ⟨hcd, hdl, hvals⟩ := hr
  rcases Nat.lt_or_ge e p with h' | h'
  · exact Or.inl ⟨⟨hcd, hdl, hvals⟩, e, he1, h', he3⟩
  · have hep : e = p := by omega
    rcases Nat.lt_or_ge d a with hda | hda
    · rcases hbound with h0 | h0
      · omega
      · exact Or.inl ⟨⟨hcd, hdl, hvals⟩, a - 1, by omega, by omega, h0⟩
    · refine Or.inr ⟨?_, by omega, ⟨hcd, hdl, hvals⟩⟩
      by_contra hca
      push_neg at hca
      rcases hbound with h0 | h0
      · omega
      · have hmem : c ≤ a - 1 ∧ a - 1 < d := by omega
        have hv := hvals (a - 1) hmem.1 hmem.2
        have hlt : a - 1 < hist.length := by omega
        rw [← appget_lt hlt] at hv
        rw [h0] at hv
        exact absurd hv (by omega)

/-- The open run `[a, p)` itself is a run of the histogram. -/
theorem open_run_hRun {hist : List Nat} {a p : Nat} (hap : a < p)
    (hall : ∀ i, a ≤ i → i < p → (hist ++ [0]).getD i 0 = 1) :
    hRun hist a p := by
  have hpl := open_run_le_len hap hall
  refine ⟨hap, hpl, ?_⟩
  intro i hi1 hi2
  have := hall i hi1 hi2
  rwa [appget_lt (by omega)] at this

/-- Any closed run avoids the open run `[a, p)`: its closing zero forces
its right end (strictly) left of `a`. -/
theorem closedRun_left_of_open {hist : List Nat} {a p c d : Nat}
    (hall : ∀ i, a ≤ i → i < p → (hist ++ [0]).getD i 0 = 1)
    (h : closedRun hist p c d) : d < a := by
  obtain ⟨⟨hcd, hdl, _⟩, e, he1, he2, he3⟩ := h
  rcases Nat.lt_or_ge e a with h' | h'
  · omega
  · have := hall e h' he2
    omega

/-- One step of the scan preserves the 0/1 invariant. -/
theorem stackStep01 (hist : List Nat) (p : Nat) (st : ScanSt)
    (hit : (hist ++ [0]).getD p 0 ≤ 1)
    (hinv : scanInv1 hist p st) :
    scanInv1 hist (p + 1) (stackStep 0 p ((hist ++ [0]).getD p 0) st) := by
  obtain ⟨stk, ch, m⟩ := st
  obtain ⟨hstk, hm⟩ := hinv
  have hit01 : (hist ++ [0]).getD p 0 = 0 ∨ (hist ++ [0]).getD p 0 = 1 := by omega
  rcases hstk with ⟨hs1, hs2, hs3⟩ | ⟨a, hs1, hs2, ha, hall, hbound⟩ <;>
    simp only at hs1 hs2 <;> subst hs1 <;> subst hs2
  · rcases hit01 with h0 | h1
    · rw [h0]
      have hstep : stackStep 0 p 0 ⟨[], 0, m⟩ = ⟨[], 0, m⟩ := by
        simp [stackStep]
      rw [hstep]
      constructor
      · exact Or.inl ⟨rfl, rfl, Or.inr (by simpa using h0)⟩
      · rcases hm with ⟨hm1, hm2⟩ | ⟨a, b, hm1, hm2, hm3, hm4, hm5⟩
        · exact Or.inl ⟨hm1, fun c d hcd =>
            hm2 c d (closedRun_succ_zero_out hs3 hcd)⟩
        · exact Or.inr ⟨a, b, hm1, hm2, closedRun_mono hm3,
            fun c d hcd => hm4 c d (closedRun_succ_zero_out hs3 hcd),
            fun c d hcd => hm5 c d (closedRun_succ_zero_out hs3 hcd)⟩
    · rw [h1]
      have hstep : stackStep 0 p 1 ⟨[], 0, m⟩ = ⟨[(p, 0)], 1, m⟩ := by
        simp [stackStep]
      rw [hstep]
      constructor
      · refine Or.inr ⟨p, rfl, rfl, by omega, ?_, ?_⟩
        · intro i hi1 hi2
          have : i = p := by omega
          subst this
          exact h1
        · exact hs3
      · rcases hm with ⟨hm1, hm2⟩ | ⟨a, b, hm1, hm2, hm3, hm4, hm5⟩
        · exact Or.inl ⟨hm1, fun c d hcd =>
            hm2 c d (closedRun_succ_one h1 hcd)⟩
        · exact Or.inr ⟨a, b, hm1, hm2, closedRun_mono hm3,
            fun c d hcd => hm4 c d (closedRun_succ_one h1 hcd),
            fun c d hcd => hm5 c d (closedRun_succ_one h1 hcd)⟩
  · rcases hit01 with h0 | h1
    · rw [h0]
      have hstep : stackStep 0 p 0 ⟨[(a, 0)], 1, m⟩ =
          ⟨[], 0, updMax m (1 * (p - a)) (a, p, 0, 1)⟩ := by
        simp [stackStep, popLoop]
      rw [hstep]
      have hnewc : closedRun hist (p + 1) a p :=
        ⟨open_run_hRun ha hall, p, le_refl _, by omega, h0⟩
      constructor
      · exact Or.inl ⟨rfl, rfl, Or.inr (by simpa using h0)⟩
      · rcases hm with ⟨hm1, hm2⟩ | ⟨a', b', hm1, hm2, hm3, hm4, hm5⟩
        · subst hm1
          have hup : updMax { area := -1, coords := none } (1 * (p - a)) (a, p, 0, 1) =
              { area := ((1 * (p - a) : Nat) : Int), coords := some (a, p, 0, 1) } := by
            unfold updMax
            rw [if_pos]
            simp only
            have : (0 : Int) ≤ ((1 * (p - a) : Nat) : Int) := Int.natCast_nonneg _
            omega
          rw [hup]
          refine Or.inr ⟨a, p, rfl, by simp, hnewc, ?_, ?_⟩
          · intro c d hcd
            rcases closedRun_succ_zero_in ha hall hbound hcd with hold | ⟨hac, hdp, _⟩
            · exact absurd hold (hm2 c d)
            · omega
          · intro c d hcd hlen
            rcases closedRun_succ_zero_in ha hall hbound hcd with hold | ⟨hac, hdp, _⟩
            · exact absurd hold (hm2 c d)
            · omega
        · rcases Nat.lt_or_ge (b' - a') (p - a) with hcmp | hcmp
          · have hup : updMax m (1 * (p - a)) (a, p, 0, 1) =
                { area := ((1 * (p - a) : Nat) : Int), coords := some (a, p, 0, 1) } := by
              unfold updMax
              rw [if_pos]
              rw [hm2]
              have : ((b' - a' : Nat) : Int) < ((1 * (p - a) : Nat) : Int) := by
                rw [Nat.cast_lt]
                omega
              omega
            rw [hup]
            refine Or.inr ⟨a, p, rfl, by simp, hnewc, ?_, ?_⟩
            · intro c d hcd
              rcases closedRun_succ_zero_in ha hall hbound hcd with hold | ⟨hac, hdp, _⟩
              · have := hm4 c d hold
                omega
              · omega
            · intro c d hcd hlen
              rcases closedRun_succ_zero_in ha hall hbound hcd with hold | ⟨hac, hdp, _⟩
              · have := hm4 c d hold
                omega
              · omega
          · have hup : updMax m (1 * (p - a)) (a, p, 0, 1) = m := by
              unfold updMax
              rw [if_neg]
              rw [hm2]
              have : ((1 * (p - a) : Nat) : Int) ≤ ((b' - a' : Nat) : Int) := by
                rw [Nat.cast_le]
                omega
              omega
            rw [hup]
            have hlta : b' < a := by
              have := closedRun_left_of_open hall hm3
              obtain ⟨⟨hab', _, _⟩, _⟩ := hm3
              omega
            refine Or.inr ⟨a', b', hm1, hm2, closedRun_mono hm3, ?_, ?_⟩
            · intro c d hcd
              rcases closedRun_succ_zero_in ha hall hbound hcd with hold | ⟨hac, hdp, _⟩
              · exact hm4 c d hold
              · omega
            · intro c d hcd hlen
              rcases closedRun_succ_zero_in ha hall hbound hcd with hold | ⟨hac, hdp, _⟩
              · exact hm5 c d hold hlen
              · obtain ⟨⟨hab', _, _⟩, _⟩ := hm3
                omega
    · rw [h1]
      have hstep : stackStep 0 p 1 ⟨[(a, 0)], 1, m⟩ = ⟨[(a, 0)], 1, m⟩ := by
        simp [stackStep]
      rw [hstep]
      constructor
      · refine Or.inr ⟨a, rfl, rfl, by omega, ?_, hbound⟩
        intro i hi1 hi2
        rcases Nat.lt_or_ge i p with h' | h'
        · exact hall i hi1 h'
        · have : i = p := by omega
          subst this
          exact h1
      · rcases hm with ⟨hm1, hm2⟩ | ⟨a', b', hm1, hm2, hm3, hm4, hm5⟩
        · exact Or.inl ⟨hm1, fun c d hcd =>
            hm2 c d (closedRun_succ_one h1 hcd)⟩
        · exact Or.inr ⟨a', b', hm1, hm2, closedRun_mono hm3,
            fun c d hcd => hm4 c d (closedRun_succ_one h1 hcd),
            fun c d hcd => hm5 c d (closedRun_succ_one h1 hcd)⟩

theorem scanCols01 (hist : List Nat) (h01 : ∀ i, hist.getD i 0 ≤ 1) :
    ∀ (rest : List Nat) (p : Nat) (st : ScanSt),
    (hist ++ [0]).drop p = rest → scanInv1 hist p st →
    scanInv1 hist (p + rest.length) (scanCols 0 p rest st) := by
  intro rest
  induction rest with
  | nil =>
      intro p st _ hinv
      simpa [scanCols] using hinv
  | cons it rest' ih =>
      intro p st hdrop hinv
      have hplen : p < (hist ++ [0]).length := by
        by_contra hge
        push_neg at hge
        rw [List.drop_eq_nil_of_le hge] at hdrop
        exact List.noConfusion hdrop
      have hhead : (hist ++ [0]).getD p 0 = it := by
        rw [List.getD_eq_getElem _ _ hplen]
        have hd2 : 0 < ((hist ++ [0]).drop p).length := by
          rw [hdrop]
          simp
        have h2 : ((hist ++ [0]).drop p)[0] = it := by
          simp [hdrop]
        rw [List.getElem_drop] at h2
        simpa using h2
      have hit : (hist ++ [0]).getD p 0 ≤ 1 := by
        rcases Nat.lt_or_ge p hist.length with h' | h'
        · rw [appget_lt h']
          exact h01 p
        · rw [appget_ge h']
          omega
      have hdrop' : (hist ++ [0]).drop (p + 1) = rest' := by
        rw [← List.drop_drop, hdrop]
        rfl
      have hstep := stackStep01 hist p st hit hinv
      rw [hhead] at hstep
      have := ih (p + 1) (stackStep 0 p it st) hdrop' hstep
      rw [show p + (it :: rest').length = (p + 1) + rest'.length from by
        simp [List.length_cons]; omega]
      simpa [scanCols] using this

/-- Full characterisation of a single 0/1 histogram scan from the initial
record: either there is no run and the record stays initial, or the
record is the leftmost maximum-length run. -/
theorem scanRow01 (hist : List Nat) (h01 : ∀ i, hist.getD i 0 ≤ 1) :
    (scanRow 0 hist { area := -1, coords := none } = { area := -1, coords := none } ∧
      ∀ c d, ¬ hRun hist c d) ∨
    (∃ a b, (scanRow 0 hist { area := -1, coords := none }).coords = some (a, b, 0, 1) ∧
      (scanRow 0 hist { area := -1, coords := none }).area = ((b - a : Nat) : Int) ∧
      hRun hist a b ∧ (∀ c d, hRun hist c d → d - c ≤ b - a) ∧
      (∀ c d, hRun hist c d → b - a ≤ d - c → a ≤ c)) := by
  have hinit : scanInv1 hist 0 ⟨[], 0, { area := -1, coords := none }⟩ := by
    constructor
    · exact Or.inl ⟨rfl, rfl, Or.inl rfl⟩
    · refine Or.inl ⟨rfl, ?_⟩
      rintro c d ⟨_, e, _, he, _⟩
      omega
  have hfin := scanCols01 hist h01 (hist ++ [0]) 0 ⟨[], 0, { area := -1, coords := none }⟩
    rfl hinit
  have hlen : (0 : Nat) + (hist ++ [0]).length = hist.length + 1 := by simp
  rw [hlen] at hfin
  have hclosed_iff : ∀ c d, closedRun hist (hist.length + 1) c d ↔ hRun hist c d := by
    intro c d
    constructor
    · exact fun h => h.1
    · intro hr
      exact ⟨hr, hist.length, hr.2.1, by omega, appget_ge (le_refl _)⟩
  obtain ⟨_, hm⟩ := hfin
  rcases hm with ⟨hm1, hm2⟩ | ⟨a, b, hm1, hm2, hm3, hm4, hm5⟩
  · refine Or.inl ⟨?_, fun c d hr => hm2 c d ((hclosed_iff c d).mpr hr)⟩
    unfold scanRow
    exact hm1
  · refine Or.inr ⟨a, b, hm1, hm2, (hclosed_iff a b).mp hm3,
      fun c d hr => hm4 c d ((hclosed_iff c d).mpr hr),
      fun c d hr => hm5 c d ((hclosed_iff c d).mpr hr)⟩

/-- The histogram of a single-row sub-grid after the cache update of its
only iteration. -/
def rowHist (row : List Nat) : List Nat :=
  updateCache (List.replicate row.length 0) row

/-- On a one-row sub-grid the whole search is a single scan of the
first-row histogram. -/
theorem trimCore_single (row : List Nat) :
    trimCore [row] = scanRow 0 (rowHist row) { area := -1, coords := none } := rfl

theorem cellAt_single (row : List Nat) (x : Nat) :
    cellAt [row] 0 x = row.getD x 0 := rfl

theorem rowHist_length (row : List Nat) : (rowHist row).length = row.length := by
  unfold rowHist
  rw [updateCache_length]
  simp

theorem rowHist_getD (row : List Nat) {x : Nat} (hx : x < row.length) :
    (rowHist row).getD x 0 = if row.getD x 0 ≠ 0 then 0 else 1 := by
  unfold rowHist
  rw [updateCache_getD _ _ _ (by simpa using hx) hx]
  rw [replicate_getD]

theorem rowHist01 (row : List Nat) : ∀ i, (rowHist row).getD i 0 ≤ 1 := by
  intro i
  rcases Nat.lt_or_ge i row.length with h | h
  · rw [rowHist_getD row h]
    split <;> omega
  · rw [List.getD_eq_default _ _ (by rw [rowHist_length]; exact h)]
    omega

/-- Histogram runs of a single row are exactly its runs of uncovered
cells. -/
theorem hRun_zero_iff (row : List Nat) (c d : Nat) :
    hRun (rowHist row) c d ↔
      (c < d ∧ d ≤ row.length ∧ ∀ i, c ≤ i → i < d → row.getD i 0 = 0) := by
  unfold hRun
  rw [rowHist_length]
  constructor
  · intro ⟨h1, h2, h3⟩
    refine ⟨h1, h2, ?_⟩
    intro i hi1 hi2
    have hv := h3 i hi1 hi2
    rw [rowHist_getD row (by omega)] at hv
    by_contra hne
    rw [if_pos hne] at hv
    omega
  · intro ⟨h1, h2, h3⟩
    refine ⟨h1, h2, ?_⟩
    intro i hi1 hi2
    rw [rowHist_getD row (by omega), h3 i hi1 hi2]
    simp

/-- On a single-row candidate region, `trim` keeps the leftmost of the
maximum-length uncovered runs. -/
theorem trim_one_row_spec {s : Solver} {t : Tower}
    (hrect : rectangular s.coverage s.height s.width)
    (hb : t.inbounds s.height s.width) (hrow : t.y2 = t.y1 + 1)
    {x0 : Nat} (hc : t.covers t.y1 x0) (hz : cellAt s.coverage t.y1 x0 = 0) :
    ∃ t', Tower.trim t s = .ok (s, t') ∧
      t'.solverId = t.solverId ∧ t'.rank = t.rank ∧
      t'.y1 = t.y1 ∧ t'.y2 = t.y2 ∧ t.x1 ≤ t'.x1 ∧ t'.x1 < t'.x2 ∧ t'.x2 ≤ t.x2 ∧
      rectEmptyIn s.coverage t t'.x1 t'.x2 t.y1 t.y2 ∧
      (∀ x1 x2 y1 y2, rectEmptyIn s.coverage t x1 x2 y1 y2 →
        x2 - x1 ≤ t'.x2 - t'.x1) ∧
      (∀ x1 x2 y1 y2, rectEmptyIn s.coverage t x1 x2 y1 y2 →
        t'.x2 - t'.x1 ≤ x2 - x1 → t'.x1 ≤ x1) := by
  obtain ⟨hbx12, hbx2, hby12, hby2⟩ := hb
  obtain ⟨hcy1, hcy2, hcx1, hcx2⟩ := hc
  have hyd : t.y2 - t.y1 = 1 := by omega
  have hsub := subGrid_rectangular hrect ⟨hbx12, hbx2, hby12, hby2⟩
  rw [hyd] at hsub
  obtain ⟨row, hrow_eq⟩ : ∃ r, subGrid s.coverage t = [r] := by
    have hlen1 : (subGrid s.coverage t).length = 1 := hsub.1
    rcases hsg : subGrid s.coverage t with _ | ⟨r, rest⟩
    · rw [hsg] at hlen1
      simp at hlen1
    · rcases rest with _ | ⟨r2, rest2⟩
      · exact ⟨r, rfl⟩
      · rw [hsg] at hlen1
        simp at hlen1
  have hlenrow : row.length = t.x2 - t.x1 := by
    have := hsub.2 row (by rw [hrow_eq]; simp)
    exact this
  have hj : x0 - t.x1 < t.x2 - t.x1 := by omega
  have hzrow : row.getD (x0 - t.x1) 0 = 0 := by
    have hcell := subGrid_cellAt hrect ⟨hbx12, hbx2, hby12, hby2⟩
      (r := 0) (c := x0 - t.x1) (by omega) hj
    rw [hrow_eq, cellAt_single] at hcell
    rw [hcell]
    rw [show t.x1 + (x0 - t.x1) = x0 from by omega]
    exact hz
  have h01 := rowHist01 row
  have hrun1 : hRun (rowHist row) (x0 - t.x1) (x0 - t.x1 + 1) := by
    rw [hRun_zero_iff]
    refine ⟨by omega, by omega, ?_⟩
    intro i hi1 hi2
    rw [show i = x0 - t.x1 from by omega]
    exact hzrow
  rcases scanRow01 (rowHist row) h01 with ⟨_, hnone⟩ | ⟨a, b, hco, _, hr, hmax, hleft⟩
  · exact absurd hrun1 (hnone _ _)
  have hTC : trimCore (subGrid s.coverage t) =
      scanRow 0 (rowHist row) { area := -1, coords := none } := by
    rw [hrow_eq]
    exact trimCore_single row
  have hcoords : (trimCore (subGrid s.coverage t)).coords = some (a, b, 0, 1) := by
    rw [hTC]
    exact hco
  obtain ⟨hab, hble, hvals⟩ := hr
  have hblen : b ≤ t.x2 - t.x1 := by
    rw [rowHist_length] at hble
    omega
  have hzrun := (hRun_zero_iff row a b).mp ⟨hab, hble, hvals⟩
  have hnotall : allCoveredB (subGrid s.coverage t) = false := by
    rw [allCoveredB_false_iff hsub]
    refine ⟨0, by omega, x0 - t.x1, hj, ?_⟩
    rw [hrow_eq, cellAt_single]
    exact hzrow
  have hconv : ∀ x1 x2 y1 y2, rectEmptyIn s.coverage t x1 x2 y1 y2 →
      t.x1 ≤ x1 ∧ x1 < x2 ∧ x2 ≤ t.x2 ∧
        hRun (rowHist row) (x1 - t.x1) (x2 - t.x1) := by
    intro x1 x2 y1 y2 hin
    obtain ⟨g1, g2, g3, g4, g5, g6, gcells⟩ := hin
    have hy1e : y1 = t.y1 := by omega
    have hy2e : y2 = t.y1 + 1 := by omega
    refine ⟨g1, g2, g3, ?_⟩
    rw [hRun_zero_iff]
    refine ⟨by omega, by omega, ?_⟩
    intro i hi1 hi2
    have hiw : i < t.x2 - t.x1 := by omega
    have hcell := subGrid_cellAt hrect ⟨hbx12, hbx2, hby12, hby2⟩
      (r := 0) (c := i) (by omega) hiw
    rw [hrow_eq, cellAt_single] at hcell
    rw [hcell]
    exact gcells (t.y1 + 0) (by omega) (by omega) (t.x1 + i) (by omega) (by omega)
  refine ⟨{ t with x1 := t.x1 + a, x2 := t.x1 + b, y1 := t.y1 + 0, y2 := t.y1 + 1 },
    ?_, rfl, rfl, rfl, by show t.y1 + 1 = t.y2; omega,
    by show t.x1 ≤ t.x1 + a; omega,
    by show t.x1 + a < t.x1 + b; omega,
    by show t.x1 + b ≤ t.x2; omega, ?_, ?_, ?_⟩
  · show Tower.trim t s = _
    unfold Tower.trim
    rw [if_neg (by simp [hnotall])]
    simp only [hcoords]
    rw [if_pos (⟨by omega, by omega, by omega, by omega⟩ :
      t.x1 + a < t.x1 + b ∧ t.x1 + b ≤ s.width ∧
        t.y1 + 0 < t.y1 + 1 ∧ t.y1 + 1 ≤ s.height)]
  · have hre : rectEmpty (subGrid s.coverage t) (t.y2 - t.y1) (t.x2 - t.x1) a b 0 1 := by
      refine ⟨hab, hblen, by omega, by omega, ?_⟩
      intro y hy x hx hy0 hax
      rw [show y = 0 from by omega, hrow_eq, cellAt_single]
      exact hzrun.2.2 x hax hx
    have hin := (rectEmpty_sub_iff hrect ⟨hbx12, hbx2, hby12, hby2⟩ a b 0 1).mp hre
    show rectEmptyIn s.coverage t (t.x1 + a) (t.x1 + b) t.y1 t.y2
    rw [hrow]
    exact hin
  · intro x1 x2 y1 y2 hin
    obtain ⟨g1, g2, g3, hrn⟩ := hconv x1 x2 y1 y2 hin
    have hle := hmax _ _ hrn
    show x2 - x1 ≤ t.x1 + b - (t.x1 + a)
    omega
  · intro x1 x2 y1 y2 hin hge
    obtain ⟨g1, g2, g3, hrn⟩ := hconv x1 x2 y1 y2 hin
    have hge' : t.x1 + b - (t.x1 + a) ≤ x2 - x1 := hge
    have hla := hleft _ _ hrn (by omega)
    show t.x1 + a ≤ x1
    omega

/-- Counterexample to the claimed row-major tie-break: on the grid
`[[0,9,0,0],[0,9,9,9]]` with the full-grid candidate, the all-uncovered
rectangles `[0,1)×[0,2)` (top-left cell `(0,0)`) and `[2,4)×[0,1)`
(top-left cell `(0,2)`) tie for the maximal area `2`, the first one's
top-left cell strictly precedes the second's in row-major order, yet
`trim` keeps the second: ties keep the rectangle examined first by the
scan (closed at the bottom row of the rectangle), not the one first in
row-major order of the grid. -/
theorem tie_break_scan_order_counterexample :
    Tower.trim ⟨0, 0, 4, 0, 2, none⟩ ⟨0, 2, 4, [[0, 9, 0, 0], [0, 9, 9, 9]], 0, []⟩ =
      .ok (⟨0, 2, 4, [[0, 9, 0, 0], [0, 9, 9, 9]], 0, []⟩, ⟨0, 2, 4, 0, 1, none⟩) ∧
    rectEmptyIn [[0, 9, 0, 0], [0, 9, 9, 9]] ⟨0, 0, 4, 0, 2, none⟩ 0 1 0 2 ∧
    rectEmptyIn [[0, 9, 0, 0], [0, 9, 9, 9]] ⟨0, 0, 4, 0, 2, none⟩ 2 4 0 1 ∧
    (∀ x1 x2 y1 y2,
      rectEmptyIn [[0, 9, 0, 0], [0, 9, 9, 9]] ⟨0, 0, 4, 0, 2, none⟩ x1 x2 y1 y2 →
      (x2 - x1) * (y2 - y1) ≤ 2) ∧
    (1 - 0) * (2 - 0) = 2 ∧ (4 - 2) * (1 - 0) = 2 ∧
    0 * 4 + 0 < 0 * 4 + 2 ∧
    (⟨0, 2, 4, 0, 1, none⟩ : Tower) ≠ ⟨0, 0, 1, 0, 2, none⟩ := by
  refine ⟨rfl, by decide, by decide, ?_, by decide, by decide, by decide, by decide⟩
  intro x1 x2 y1 y2 hin
  have hin' := hin
  obtain ⟨g1, g2, g3, g4, g5, g6, _⟩ := hin'
  have h2 : x2 ≤ 4 := g3
  have h4 : y2 ≤ 2 := g6
  have hbdd : ∀ a, a < 4 → ∀ b, b < 5 → ∀ c, c < 2 → ∀ d, d < 3 →
      rectEmptyIn [[0, 9, 0, 0], [0, 9, 9, 9]] ⟨0, 0, 4, 0, 2, none⟩ a b c d →
      (b - a) * (d - c) ≤ 2 := by decide
  exact hbdd x1 (by omega) x2 (by omega) y1 (by omega) y2 (by omega) hin

/-- **C6 (amended).**  Ties of maximal area keep the rectangle examined
first by the scan, with no secondary tie-break: a rectangle whose area
equals the recorded maximum never replaces it (`updMax` records only on
strictly greater area).  The examination order is by closing event of the
bottom-row scan, which coincides with row-major order of the top-left
corners only within one row: on a single-row candidate region the
trimmed result is the leftmost of the maximum-length uncovered runs.
(The unamended row-major reading is refuted by
the two-row counterexample.) -/
theorem tie_break_scan_order :
    (∀ (m : MaxSt) (a : Nat) (c : Nat × Nat × Nat × Nat),
      m.area = (a : Int) → updMax m a c = m) ∧
    (∀ (s : Solver) (t : Tower),
      rectangular s.coverage s.height s.width →
      t.inbounds s.height s.width → t.y2 = t.y1 + 1 →
      ∀ x0, t.covers t.y1 x0 → cellAt s.coverage t.y1 x0 = 0 →
      ∃ t', Tower.trim t s = .ok (s, t') ∧
        t'.solverId = t.solverId ∧ t'.rank = t.rank ∧
        t'.y1 = t.y1 ∧ t'.y2 = t.y2 ∧
        t.x1 ≤ t'.x1 ∧ t'.x1 < t'.x2 ∧ t'.x2 ≤ t.x2 ∧
        rectEmptyIn s.coverage t t'.x1 t'.x2 t.y1 t.y2 ∧
        (∀ x1 x2 y1 y2, rectEmptyIn s.coverage t x1 x2 y1 y2 →
          x2 - x1 ≤ t'.x2 - t'.x1) ∧
        (∀ x1 x2 y1 y2, rectEmptyIn s.coverage t x1 x2 y1 y2 →
          t'.x2 - t'.x1 ≤ x2 - x1 → t'.x1 ≤ x1)) := by
  constructor
  · intro m a c heq
    unfold updMax
    rw [if_neg]
    rw [heq]
    omega
  · intro s t hrect hb hrow x0 hc hz
    exact trim_one_row_spec hrect hb hrow hc hz

theorem tie_break_scan_order_witness :
    ((⟨1, some (0, 1, 0, 1)⟩ : MaxSt).area = ((1 : Nat) : Int) ∧
      updMax ⟨1, some (0, 1, 0, 1)⟩ 1 (2, 3, 0, 1) = ⟨1, some (0, 1, 0, 1)⟩) ∧
    (rectangular [[0, 7, 0]] 1 3 ∧
      Tower.inbounds ⟨0, 0, 3, 0, 1, none⟩ 1 3 ∧
      (⟨0, 0, 3, 0, 1, none⟩ : Tower).y2 = (⟨0, 0, 3, 0, 1, none⟩ : Tower).y1 + 1 ∧
      Tower.covers ⟨0, 0, 3, 0, 1, none⟩ 0 0 ∧
      cellAt [[0, 7, 0]] 0 0 = 0 ∧
      Tower.trim ⟨0, 0, 3, 0, 1, none⟩ ⟨0, 1, 3, [[0, 7, 0]], 0, []⟩ =
        .ok (⟨0, 1, 3, [[0, 7, 0]], 0, []⟩, ⟨0, 0, 1, 0, 1, none⟩) ∧
      (∃ t', Tower.trim ⟨0, 0, 3, 0, 1, none⟩ ⟨0, 1, 3, [[0, 7, 0]], 0, []⟩ =
          .ok (⟨0, 1, 3, [[0, 7, 0]], 0, []⟩, t') ∧
        t'.solverId = 0 ∧ t'.rank = none ∧
        t'.y1 = 0 ∧ t'.y2 = 1 ∧ 0 ≤ t'.x1 ∧ t'.x1 < t'.x2 ∧ t'.x2 ≤ 3 ∧
        rectEmptyIn [[0, 7, 0]] ⟨0, 0, 3, 0, 1, none⟩ t'.x1 t'.x2 0 1 ∧
        (∀ x1 x2 y1 y2,
          rectEmptyIn [[0, 7, 0]] ⟨0, 0, 3, 0, 1, none⟩ x1 x2 y1 y2 →
          x2 - x1 ≤ t'.x2 - t'.x1) ∧
        (∀ x1 x2 y1 y2,
          rectEmptyIn [[0, 7, 0]] ⟨0, 0, 3, 0, 1, none⟩ x1 x2 y1 y2 →
          t'.x2 - t'.x1 ≤ x2 - x1 → t'.x1 ≤ x1))) :=
  ⟨⟨by decide, tie_break_scan_order.1 ⟨1, some (0, 1, 0, 1)⟩ 1 (2, 3, 0, 1) (by decide)⟩,
   by decide, by decide, by decide, by decide, by decide, rfl,
   tie_break_scan_order.2 ⟨0, 1, 3, [[0, 7, 0]], 0, []⟩ ⟨0, 0, 3, 0, 1, none⟩
     (by decide) (by decide) (by decide) 0 (by decide) (by decide)⟩
